import Mathlib

/-!
# Feedback arc set: generator, supervisor and the shared channel

A shallow embedding of `src/fb_arc_set/{common.h, generator.c, supervisor.c}`.

Conventions of the embedding.

* A C record `{ T list[N]; int size; }` is embedded as the list of its live cells
  `list[0] .. list[size-1]`; `size` is the length of that list.  The statement pair
  `a.list[a.size] = x; a.size++` appends `x`, and is an out-of-bounds store (a fault,
  `none`) when `a.size` has already reached the capacity `N` of the array.
* Globals of the C programs become explicit arguments and results.
* `rand()` is a sequence of naturals handed to the functions that call it.
-/

namespace FbArcSet

/-! ## common.h -/

/-- The constant `DEFAULT_EDGES_AMOUNT`. -/
abbrev DEFAULT_EDGES_AMOUNT : Nat := 40

/-- The constant `BUFFER_SIZE`. -/
abbrev BUFFER_SIZE : Nat := 12

/-- The constant `INT_MAX` of a 32-bit `int`. -/
abbrev INT_MAX : Int := 2147483647

/-- The record `edge_t`. -/
structure edge_t where
  start : Int
  end_ : Int
deriving DecidableEq, Repr

/-- The record `list_of_edges_t`: the live cells of `list`. -/
structure list_of_edges_t where
  list : List edge_t
deriving DecidableEq, Repr

/-- The field `size` of a `list_of_edges_t`. -/
def list_of_edges_t.size (l : list_of_edges_t) : Nat := l.list.length

/-- The record `myshm_t`; `buffer` has `BUFFER_SIZE` cells. -/
structure myshm_t where
  buffer : List list_of_edges_t
  read_index : Nat
  write_index : Nat
  stop : Bool
deriving DecidableEq, Repr

/-! ## generator.c -/

/-- The record `list_of_vertices_t` of generator.c: the live cells of `list`. -/
structure list_of_vertices_t where
  list : List Int
deriving DecidableEq, Repr

/-- The field `size` of a `list_of_vertices_t`. -/
def list_of_vertices_t.size (v : list_of_vertices_t) : Nat := v.list.length

/-- The loop of `indexOfElementInVertices`, entered at index `i` with the cells from
`i` on still to be inspected. -/
def indexOfElementInVertices.loop (elem : Int) : List Int → Int → Int
  | [], _ => -1
  | x :: rest, i => if elem = x then i else indexOfElementInVertices.loop elem rest (i + 1)

/-- The function `indexOfElementInVertices` (generator.c:115). -/
def indexOfElementInVertices (list_of_vertices : list_of_vertices_t) (elem : Int) : Int :=
  indexOfElementInVertices.loop elem list_of_vertices.list 0

/-- The function `addElemToListOfVertices` (generator.c:134).  The store
`list[size] = elem` is out of bounds once `size` is `DEFAULT_EDGES_AMOUNT`. -/
def addElemToListOfVertices (list_of_vertices : list_of_vertices_t) (elem : Int) :
    Option list_of_vertices_t :=
  if indexOfElementInVertices list_of_vertices elem = -1 then
    if list_of_vertices.size < DEFAULT_EDGES_AMOUNT then
      some ⟨list_of_vertices.list ++ [elem]⟩
    else none
  else some list_of_vertices

/-- The loop of `createListOfVertices` over the remaining edges. -/
def createListOfVertices.loop : List edge_t → list_of_vertices_t → Option list_of_vertices_t
  | [], v => some v
  | e :: rest, v =>
    (addElemToListOfVertices v e.start).bind fun v1 =>
    (addElemToListOfVertices v1 e.end_).bind fun v2 =>
    createListOfVertices.loop rest v2

/-- The function `createListOfVertices` (generator.c:148). -/
def createListOfVertices (list_of_edges : list_of_edges_t) : Option list_of_vertices_t :=
  createListOfVertices.loop list_of_edges.list ⟨[]⟩

/-- The function `generateRandomNumber` (generator.c:166); `r` is the value of `rand()`. -/
def generateRandomNumber (r : Nat) (lower upper : Int) : Int :=
  (r : Int) % (upper - lower + 1) + lower

/-- The loop of `generateRandomListOfVertices`: `list` and `size` are the cells and the
size of `list_of_vertices`, `list2` is `list_of_vertices2`, and `k` counts the calls
of `rand()` made so far. -/
def generateRandomListOfVertices.loop (rand : Nat → Nat) :
    Nat → List Int → List Int → Nat → List Int × Nat
  | 0, _, list2, k => (list2, k)
  | size + 1, list, list2, k =>
    let randomNumber := (generateRandomNumber (rand k) 0 ((size + 1 : Nat) - 1 : Int)).toNat
    let list2 := list2 ++ [list.getD randomNumber 0]
    let list := list.set randomNumber (list.getD size 0)
    generateRandomListOfVertices.loop rand size list list2 (k + 1)

/-- The function `generateRandomListOfVertices` (generator.c:177); returns the new
`list_of_vertices` and the number of `rand()` calls made. -/
def generateRandomListOfVertices (rand : Nat → Nat) (k : Nat)
    (list_of_vertices : list_of_vertices_t) : list_of_vertices_t × Nat :=
  let r := generateRandomListOfVertices.loop rand list_of_vertices.size
    list_of_vertices.list [] k
  (⟨r.1⟩, r.2)

/-- The loop of `generateSolution` (generator.c:233) over the remaining edges, with
`solution_new` as accumulator. -/
def generateSolution.loop (list_of_vertices : list_of_vertices_t) :
    List edge_t → list_of_edges_t → list_of_edges_t
  | [], solution_new => solution_new
  | edge :: rest, solution_new =>
    if indexOfElementInVertices list_of_vertices edge.start
        > indexOfElementInVertices list_of_vertices edge.end_ then
      generateSolution.loop list_of_vertices rest ⟨solution_new.list ++ [edge]⟩
    else
      generateSolution.loop list_of_vertices rest solution_new

/-- Lines 229-242 of `generateSolution`: the selection of edges, run on the
`list_of_vertices` that the shuffle has left. -/
def generateSolution.select (list_of_vertices : list_of_vertices_t)
    (list_of_edges : list_of_edges_t) : list_of_edges_t :=
  generateSolution.loop list_of_vertices list_of_edges.list ⟨[]⟩

/-- The function `generateSolution` (generator.c:227); returns the shuffled
`list_of_vertices`, the Solution and the number of `rand()` calls made. -/
def generateSolution (rand : Nat → Nat) (k : Nat) (list_of_vertices : list_of_vertices_t)
    (list_of_edges : list_of_edges_t) : list_of_vertices_t × list_of_edges_t × Nat :=
  let s := generateRandomListOfVertices rand k list_of_vertices
  (s.1, generateSolution.select s.1 list_of_edges, s.2)

/-- The function `writeSolution` (generator.c:256); `solution` is the value returned
by its call of `generateSolution`. -/
def writeSolution (myshm : myshm_t) (solution : list_of_edges_t) : myshm_t :=
  { myshm with
    buffer := myshm.buffer.set myshm.write_index solution
    write_index := (myshm.write_index + 1) % BUFFER_SIZE }

/-! ## supervisor.c -/

/-- The constant `EXIT_SUCCESS`. -/
abbrev EXIT_SUCCESS : Int := 0

/-- The constant `EXIT_FAILURE`. -/
abbrev EXIT_FAILURE : Int := 1

/-- The record `supervisor_t`. -/
structure supervisor_t where
  limit : Int
  delay : Int
deriving DecidableEq, Repr

/-- The lines the supervisor prints on standard output. -/
inductive stdout_line where
  /-- The line `The graph might not be acyclic, best solution removes %d edges.` -/
  | best_solution_removes (n : Int)
  /-- The line `the graph is acyclic!` -/
  | graph_is_acyclic
deriving DecidableEq, Repr

/-- The globals of supervisor.c that `readSolution` and `main` use, and the lines
printed on standard output so far. -/
structure supervisor_globals where
  supervisor : supervisor_t
  quit : Bool
  best_solution : Int
  stdout : List stdout_line
deriving DecidableEq, Repr

/-- The globals as they are when `main` enters its loop with the limit `limit`. -/
def supervisor_globals.initial (limit : Int) : supervisor_globals :=
  { supervisor := ⟨limit, 0⟩, quit := false, best_solution := INT_MAX, stdout := [] }

/-- The function `readSolution` (supervisor.c:163). -/
def readSolution (myshm : myshm_t) (g : supervisor_globals) : myshm_t × supervisor_globals :=
  if g.supervisor.limit = 0 then
    (myshm, { g with stdout := g.stdout ++ [stdout_line.best_solution_removes g.best_solution]
                     quit := true })
  else
    let solution := myshm.buffer.getD myshm.read_index ⟨[]⟩
    if solution.size = 0 then
      (myshm, { g with stdout := g.stdout ++ [stdout_line.graph_is_acyclic], quit := true })
    else
      let best_solution :=
        if (solution.size : Int) < g.best_solution then (solution.size : Int)
        else g.best_solution
      ({ myshm with read_index := (myshm.read_index + 1) % BUFFER_SIZE },
       { g with best_solution := best_solution
                supervisor := { g.supervisor with limit := g.supervisor.limit - 1 } })

/-- The value that `readSolution` loads into its local `solution` (supervisor.c:169),
when the call gets that far. -/
def readSolution.solution (myshm : myshm_t) (g : supervisor_globals) : Option list_of_edges_t :=
  if g.supervisor.limit = 0 then none
  else some (myshm.buffer.getD myshm.read_index ⟨[]⟩)

/-! ## The channel with atomic pushes and pops

One push is a generator's `sem_wait(free_sem)`, stop test, `writeSolution`,
`sem_post(used_sem)` (generator.c:304-311); one pop is the supervisor's
`sem_wait(used_sem)`, `readSolution`, quit test, `sem_post(free_sem)`
(supervisor.c:241-255).  The fields `written` and `consumed` are history variables:
the Solutions stored by `writeSolution` and those loaded by `readSolution`, oldest first. -/

/-- The shared memory, the two semaphores, the supervisor's globals, and the history. -/
structure Channel where
  myshm : myshm_t
  free_count : Nat
  used_count : Nat
  sup : supervisor_globals
  written : List list_of_edges_t
  consumed : List list_of_edges_t
deriving DecidableEq, Repr

/-- The channel when the supervisor enters its loop (supervisor.c:224-238); `buffer`
is the content of the shared memory object at that time. -/
def Channel.initial (limit : Int) (buffer : List list_of_edges_t) : Channel :=
  { myshm := { buffer := buffer, read_index := 0, write_index := 0, stop := false }
    free_count := BUFFER_SIZE
    used_count := 0
    sup := supervisor_globals.initial limit
    written := []
    consumed := [] }

/-- The steps of the channel. -/
inductive ChannelAction where
  /-- A generator publishes `solution`. -/
  | push (solution : list_of_edges_t)
  /-- The supervisor takes the next Solution. -/
  | pop
  /-- The supervisor, having left its loop, sets `myshm->stop` (supervisor.c:257). -/
  | set_stop
deriving DecidableEq, Repr

/-- A push: enabled when `free_count > 0` and the generator does not see `stop`. -/
def Channel.push (c : Channel) (solution : list_of_edges_t) : Option Channel :=
  if 0 < c.free_count ∧ c.myshm.stop = false then
    some { c with
      free_count := c.free_count - 1
      myshm := writeSolution c.myshm solution
      used_count := c.used_count + 1
      written := c.written ++ [solution] }
  else none

/-- A pop: enabled when `used_count > 0` and the supervisor is still in its loop. -/
def Channel.pop (c : Channel) : Option Channel :=
  if 0 < c.used_count ∧ c.sup.quit = false then
    let r := readSolution c.myshm c.sup
    some { c with
      used_count := c.used_count - 1
      myshm := r.1
      sup := r.2
      free_count := if r.2.quit then c.free_count else c.free_count + 1
      consumed := match readSolution.solution c.myshm c.sup with
        | some solution => c.consumed ++ [solution]
        | none => c.consumed }
  else none

/-- The supervisor sets `stop` after its loop: enabled once `quit` is set. -/
def Channel.set_stop (c : Channel) : Option Channel :=
  if c.sup.quit then some { c with myshm := { c.myshm with stop := true } } else none

/-- One step of the channel; `none` when the step is not enabled. -/
def Channel.step (c : Channel) : ChannelAction → Option Channel
  | ChannelAction.push solution => c.push solution
  | ChannelAction.pop => c.pop
  | ChannelAction.set_stop => c.set_stop

/-- An interleaving: the steps of `actions` one after the other. -/
def Channel.run (c : Channel) : List ChannelAction → Option Channel
  | [] => some c
  | a :: rest => (c.step a).bind fun c1 => Channel.run c1 rest

/-! ## The processes step by step

The supervisor's loop and cleanup (supervisor.c:240-272) and the loop and cleanup of
each generator (generator.c:303-327), one statement per step.  Library calls are taken
to succeed, except the supervisor's `sem_wait`, which may fail with `EINTR`.
The field `abandoned` is a history variable: the number of semaphore tokens taken by a
`sem_wait` whose process then left its loop through `break`, without the `sem_post`
that would have followed. -/

/-- The program points of the supervisor's `main` from line 240 on. -/
inductive sup_pc where
  /-- At `while(!quit)` (line 240). -/
  | loop_test
  /-- At `sem_wait(used_sem)` (line 241). -/
  | sem_wait
  /-- At `readSolution(myshm)` (line 250). -/
  | read
  /-- At `if(quit) break;` (line 252). -/
  | quit_test
  /-- At `sem_post(free_sem)` (line 254). -/
  | sem_post
  /-- At `myshm->stop = true` (line 257). -/
  | set_stop
  /-- At the cleanup (lines 259-272). -/
  | cleanup
  /-- After `exit` or `return` with the given status. -/
  | exited (status : Int)
deriving DecidableEq, Repr

/-- The program points of a generator's `main` from line 303 on. -/
inductive gen_pc where
  /-- At `while(!myshm->stop)` (line 303). -/
  | loop_test
  /-- At `sem_wait(free_sem)` (line 304). -/
  | sem_wait
  /-- At `if(myshm->stop) break;` (line 306). -/
  | stop_test
  /-- At the store into `buffer[write_index]` (line 257, called from line 308). -/
  | write
  /-- At the update of `write_index` (line 258). -/
  | advance
  /-- At `sem_post(used_sem)` (line 310). -/
  | sem_post
  /-- At the cleanup (lines 314-327). -/
  | cleanup
  /-- After `return EXIT_SUCCESS`. -/
  | exited
deriving DecidableEq, Repr

/-- The library calls of the cleanup code that act on a handle or a name. -/
inductive syscall where
  | sem_close_free
  | sem_close_used
  | sem_unlink (name : String)
  | munmap
  | shm_unlink (name : String)
  | close
deriving DecidableEq, Repr

/-- The lines printed on standard error. -/
inductive stderr_line where
  /-- The line `interrupted by a signal` of the supervisor. -/
  | interrupted_by_a_signal
deriving DecidableEq, Repr

/-- The state of the supervisor and the generators running against one channel. -/
structure System where
  myshm : myshm_t
  free_count : Nat
  used_count : Nat
  sup : supervisor_globals
  sup_at : sup_pc
  gens : List gen_pc
  abandoned : Nat
  sup_calls : List syscall
  gen_calls : List (Nat × syscall)
  stderr : List stderr_line
deriving DecidableEq, Repr

/-- The system when the supervisor reaches line 240 and `n` generators reach line 303. -/
def System.initial (limit : Int) (buffer : List list_of_edges_t) (n : Nat) : System :=
  { myshm := { buffer := buffer, read_index := 0, write_index := 0, stop := false }
    free_count := BUFFER_SIZE
    used_count := 0
    sup := supervisor_globals.initial limit
    sup_at := sup_pc.loop_test
    gens := List.replicate n gen_pc.loop_test
    abandoned := 0
    sup_calls := []
    gen_calls := []
    stderr := [] }

/-- The steps of the system. -/
inductive SystemAction where
  /-- The supervisor executes the statement it is at. -/
  | sup
  /-- A signal interrupts the supervisor blocked in `sem_wait` (`EINTR`). -/
  | sup_eintr
  /-- A signal arrives and `handle_sign` runs. -/
  | signal
  /-- Generator `i` executes the statement it is at; `solution` is what its
  `generateSolution` returns, should it be at the store. -/
  | gen (i : Nat) (solution : list_of_edges_t)
deriving DecidableEq, Repr

/-- The cleanup calls of the supervisor (supervisor.c:259-271), in order. -/
def supervisor_cleanup : List syscall :=
  [syscall.sem_close_free, syscall.sem_close_used, syscall.sem_unlink "/free_sem",
   syscall.sem_unlink "/used_sem", syscall.munmap, syscall.shm_unlink "/myshm", syscall.close]

/-- The cleanup calls of a generator (generator.c:314-325), in order. -/
def generator_cleanup : List syscall :=
  [syscall.sem_close_free, syscall.sem_close_used, syscall.sem_unlink "/free_sem",
   syscall.sem_unlink "/used_sem", syscall.munmap, syscall.close]

/-- One statement of the supervisor; `none` when it is blocked or has exited. -/
def System.sup_step (s : System) : Option System :=
  match s.sup_at with
  | sup_pc.loop_test =>
    if s.sup.quit then some { s with sup_at := sup_pc.set_stop }
    else some { s with sup_at := sup_pc.sem_wait }
  | sup_pc.sem_wait =>
    if 0 < s.used_count then
      some { s with used_count := s.used_count - 1, sup_at := sup_pc.read }
    else none
  | sup_pc.read =>
    let r := readSolution s.myshm s.sup
    some { s with myshm := r.1, sup := r.2, sup_at := sup_pc.quit_test }
  | sup_pc.quit_test =>
    if s.sup.quit then some { s with sup_at := sup_pc.set_stop, abandoned := s.abandoned + 1 }
    else some { s with sup_at := sup_pc.sem_post }
  | sup_pc.sem_post =>
    some { s with free_count := s.free_count + 1, sup_at := sup_pc.loop_test }
  | sup_pc.set_stop =>
    some { s with myshm := { s.myshm with stop := true }, sup_at := sup_pc.cleanup }
  | sup_pc.cleanup =>
    some { s with sup_calls := s.sup_calls ++ supervisor_cleanup
                  sup_at := sup_pc.exited EXIT_SUCCESS }
  | sup_pc.exited _ => none

/-- The supervisor's `sem_wait` fails with `EINTR` (supervisor.c:241-246): the handler
has set `quit`, then `stop` is set and `printErrorAndExit` ends the process. -/
def System.sup_eintr (s : System) : Option System :=
  if s.sup_at = sup_pc.sem_wait ∧ s.used_count = 0 then
    some { s with
      sup := { s.sup with quit := true }
      myshm := { s.myshm with stop := true }
      stderr := s.stderr ++ [stderr_line.interrupted_by_a_signal]
      sup_at := sup_pc.exited EXIT_FAILURE }
  else none

/-- The function `handle_sign` (supervisor.c:27), run while the supervisor is alive. -/
def System.signal (s : System) : Option System :=
  match s.sup_at with
  | sup_pc.exited _ => none
  | _ => some { s with sup := { s.sup with quit := true } }

/-- One statement of generator `i`; `none` when it is blocked, has exited, or does not
exist. -/
def System.gen_step (s : System) (i : Nat) (solution : list_of_edges_t) : Option System :=
  match s.gens.get? i with
  | none => none
  | some gen_pc.loop_test =>
    if s.myshm.stop then some { s with gens := s.gens.set i gen_pc.cleanup }
    else some { s with gens := s.gens.set i gen_pc.sem_wait }
  | some gen_pc.sem_wait =>
    if 0 < s.free_count then
      some { s with free_count := s.free_count - 1, gens := s.gens.set i gen_pc.stop_test }
    else none
  | some gen_pc.stop_test =>
    if s.myshm.stop then
      some { s with gens := s.gens.set i gen_pc.cleanup, abandoned := s.abandoned + 1 }
    else some { s with gens := s.gens.set i gen_pc.write }
  | some gen_pc.write =>
    some { s with
      myshm := { s.myshm with buffer := s.myshm.buffer.set s.myshm.write_index solution }
      gens := s.gens.set i gen_pc.advance }
  | some gen_pc.advance =>
    some { s with
      myshm := { s.myshm with write_index := (s.myshm.write_index + 1) % BUFFER_SIZE }
      gens := s.gens.set i gen_pc.sem_post }
  | some gen_pc.sem_post =>
    some { s with used_count := s.used_count + 1, gens := s.gens.set i gen_pc.loop_test }
  | some gen_pc.cleanup =>
    some { s with
      gen_calls := s.gen_calls ++ generator_cleanup.map (fun c => (i, c))
      gens := s.gens.set i gen_pc.exited }
  | some gen_pc.exited => none

/-- One step of the system; `none` when the step is not enabled. -/
def System.step (s : System) : SystemAction → Option System
  | SystemAction.sup => s.sup_step
  | SystemAction.sup_eintr => s.sup_eintr
  | SystemAction.signal => s.signal
  | SystemAction.gen i solution => s.gen_step i solution

/-- A run of the system: the steps of `actions` one after the other. -/
def System.run (s : System) : List SystemAction → Option System
  | [] => some s
  | a :: rest => (s.step a).bind fun s1 => System.run s1 rest

/-- One if the supervisor is between its `sem_wait` and the matching `sem_post`. -/
def sup_pc.in_flight : sup_pc → Nat
  | sup_pc.read => 1
  | sup_pc.quit_test => 1
  | sup_pc.sem_post => 1
  | _ => 0

/-- One if the generator is between its `sem_wait` and the matching `sem_post`. -/
def gen_pc.in_flight : gen_pc → Nat
  | gen_pc.stop_test => 1
  | gen_pc.write => 1
  | gen_pc.advance => 1
  | gen_pc.sem_post => 1
  | _ => 0

/-- The number of processes between a `sem_wait` and its matching `sem_post`. -/
def System.in_flight (s : System) : Nat :=
  s.sup_at.in_flight + (s.gens.map gen_pc.in_flight).sum

/-! ## Invariants and sample runs -/

/-- What holds of the channel in every state an interleaving reaches. -/
def Channel.fifo_inv (c : Channel) : Prop :=
  c.myshm.buffer.length = BUFFER_SIZE ∧
  c.consumed <+: c.written ∧
  (c.sup.quit = false →
    c.myshm.write_index = c.written.length % BUFFER_SIZE ∧
    c.myshm.read_index = c.consumed.length % BUFFER_SIZE ∧
    c.consumed.length + c.used_count = c.written.length ∧
    c.free_count + c.used_count = BUFFER_SIZE ∧
    ∀ j, c.consumed.length ≤ j → j < c.written.length →
      c.myshm.buffer.getD (j % BUFFER_SIZE) ⟨[]⟩ = c.written.getD j ⟨[]⟩)

/-- A short interleaving: two pushes, then one pop. -/
def Channel.demo_actions : List ChannelAction :=
  [ChannelAction.push ⟨[⟨2, 0⟩]⟩, ChannelAction.push ⟨[⟨1, 0⟩, ⟨2, 1⟩]⟩, ChannelAction.pop]

/-- The state that `Channel.demo_actions` reaches from the initial channel with limit 5. -/
def Channel.demo : Channel :=
  { myshm := { buffer := [⟨[⟨2, 0⟩]⟩, ⟨[⟨1, 0⟩, ⟨2, 1⟩]⟩] ++ List.replicate 10 ⟨[]⟩
               read_index := 1, write_index := 2, stop := false }
    free_count := 11
    used_count := 1
    sup := { supervisor := ⟨4, 0⟩, quit := false, best_solution := 1, stdout := [] }
    written := [⟨[⟨2, 0⟩]⟩, ⟨[⟨1, 0⟩, ⟨2, 1⟩]⟩]
    consumed := [⟨[⟨2, 0⟩]⟩] }

/-- The tokens of the two semaphores, those held by a process between its `sem_wait`
and its `sem_post`, and those abandoned at a `break`. -/
def System.tokens (s : System) : Nat :=
  s.free_count + s.used_count + s.in_flight + s.abandoned

/-- A run of the supervisor and one generator: the generator publishes an empty
Solution (six statements), the supervisor reads it and runs to its exit (six
statements), and the generator runs to its exit (two statements). -/
def System.demo_actions : List SystemAction :=
  List.replicate 6 (SystemAction.gen 0 ⟨[]⟩) ++ List.replicate 6 SystemAction.sup
    ++ List.replicate 2 (SystemAction.gen 0 ⟨[]⟩)

/-- The state that `System.demo_actions` reaches from the initial system with one
generator. -/
def System.demo : System :=
  { myshm := { buffer := List.replicate 12 ⟨[]⟩, read_index := 0, write_index := 1,
               stop := true }
    free_count := 11
    used_count := 0
    sup := { supervisor := ⟨INT_MAX, 0⟩, quit := true, best_solution := INT_MAX,
             stdout := [stdout_line.graph_is_acyclic] }
    sup_at := sup_pc.exited EXIT_SUCCESS
    gens := [gen_pc.exited]
    abandoned := 1
    sup_calls := supervisor_cleanup
    gen_calls := generator_cleanup.map (fun c => (0, c))
    stderr := [] }

/-- The least `size` among the Solutions of `consumed`, and `INT_MAX` if that is less
or there is none. -/
def min_size (consumed : List list_of_edges_t) : Int :=
  (consumed.map fun s => (s.size : Int)).foldl min INT_MAX

/-- The least `size` among the non-empty Solutions of `consumed`, and `INT_MAX` if that
is less or there is none. -/
def min_size_nonempty (consumed : List list_of_edges_t) : Int :=
  min_size (consumed.filter fun s => s.size ≠ 0)

/-- An interleaving that feeds the supervisor Solutions of sizes 2, 1 and 0. -/
def Channel.sizes_actions : List ChannelAction :=
  [ChannelAction.push ⟨[⟨1, 0⟩, ⟨2, 1⟩]⟩, ChannelAction.pop, ChannelAction.push ⟨[⟨2, 0⟩]⟩,
   ChannelAction.push ⟨[]⟩, ChannelAction.pop, ChannelAction.pop]

/-- The state that `Channel.sizes_actions` reaches from the initial channel with the
default limit. -/
def Channel.sizes_demo : Channel :=
  { myshm := { buffer := [⟨[⟨1, 0⟩, ⟨2, 1⟩]⟩, ⟨[⟨2, 0⟩]⟩, ⟨[]⟩] ++ List.replicate 9 ⟨[]⟩
               read_index := 2, write_index := 3, stop := false }
    free_count := 11
    used_count := 0
    sup := { supervisor := ⟨INT_MAX - 2, 0⟩, quit := true, best_solution := 1,
             stdout := [stdout_line.graph_is_acyclic] }
    written := [⟨[⟨1, 0⟩, ⟨2, 1⟩]⟩, ⟨[⟨2, 0⟩]⟩, ⟨[]⟩]
    consumed := [⟨[⟨1, 0⟩, ⟨2, 1⟩]⟩, ⟨[⟨2, 0⟩]⟩, ⟨[]⟩] }

/-- An interleaving with limit 1 and three Solutions on offer. -/
def Channel.limit_actions : List ChannelAction :=
  [ChannelAction.push ⟨[⟨1, 0⟩, ⟨2, 1⟩]⟩, ChannelAction.push ⟨[⟨2, 0⟩]⟩,
   ChannelAction.push ⟨[⟨2, 1⟩]⟩, ChannelAction.pop]

/-- The state that `Channel.limit_actions` reaches from the initial channel with
limit 1. -/
def Channel.limit_demo : Channel :=
  { myshm := { buffer := [⟨[⟨1, 0⟩, ⟨2, 1⟩]⟩, ⟨[⟨2, 0⟩]⟩, ⟨[⟨2, 1⟩]⟩] ++ List.replicate 9 ⟨[]⟩
               read_index := 1, write_index := 3, stop := false }
    free_count := 10
    used_count := 2
    sup := { supervisor := ⟨0, 0⟩, quit := false, best_solution := 2, stdout := [] }
    written := [⟨[⟨1, 0⟩, ⟨2, 1⟩]⟩, ⟨[⟨2, 0⟩]⟩, ⟨[⟨2, 1⟩]⟩]
    consumed := [⟨[⟨1, 0⟩, ⟨2, 1⟩]⟩] }

/-- The edge `u -> v` is one of `edges`. -/
def has_edge (edges : List edge_t) (u v : Int) : Prop :=
  (⟨u, v⟩ : edge_t) ∈ edges

/-- No vertex of the directed graph `edges` lies on a cycle: there is no walk of one or
more edges from a vertex back to itself. -/
def acyclic (edges : List edge_t) : Prop :=
  ∀ v, ¬ Relation.TransGen (has_edge edges) v v

/-- The edges of the graph that are not in `solution`. -/
def remaining_edges (list_of_edges solution : list_of_edges_t) : List edge_t :=
  list_of_edges.list.filter fun e => e ∉ solution.list

/-- An edge list `0-1 2-3 4-5 ...` of `n` edges with `2 * n` distinct endpoints. -/
def disjoint_edges (n : Nat) : list_of_edges_t :=
  ⟨(List.range n).map fun i => ⟨(2 * i : Nat), (2 * i + 1 : Nat)⟩⟩

/-- The edge list `0-1 1-2 2-0`. -/
def three_cycle : list_of_edges_t := ⟨[⟨0, 1⟩, ⟨1, 2⟩, ⟨2, 0⟩]⟩

/-- A run in which one generator publishes the Solution `2-0` (six statements) and the
supervisor then runs to its exit (six statements). -/
def System.limit_zero_actions : List SystemAction :=
  List.replicate 6 (SystemAction.gen 0 ⟨[⟨2, 0⟩]⟩) ++ List.replicate 6 SystemAction.sup

/-- A system with limit 0 in which a generator has published one Solution and the
supervisor is still at the head of its loop. -/
def System.limit_zero_demo : System :=
  { myshm := { buffer := [⟨[⟨2, 0⟩]⟩] ++ List.replicate 11 ⟨[]⟩, read_index := 0,
               write_index := 1, stop := false }
    free_count := 11
    used_count := 1
    sup := supervisor_globals.initial 0
    sup_at := sup_pc.loop_test
    gens := [gen_pc.loop_test]
    abandoned := 0
    sup_calls := []
    gen_calls := []
    stderr := [] }

/-- The start and end vertices of the edges, in the order in which
`createListOfVertices` meets them. -/
def endpoints : List edge_t → List Int
  | [] => []
  | e :: rest => e.start :: e.end_ :: endpoints rest

/-! ## Named resources and the exit of a generator -/

/-- The named objects of the run: a named semaphore or a shared-memory object. -/
inductive named_resource where
  | sem (name : String)
  | shm (name : String)
deriving DecidableEq, Repr

/-- The three named objects the supervisor creates (supervisor.c:213-234). -/
def all_named_resources : List named_resource :=
  [named_resource.sem "/free_sem", named_resource.sem "/used_sem",
   named_resource.shm "/myshm"]

/-- The named objects that exist after one library call, given those that exist before
it: `sem_unlink` and `shm_unlink` remove the name, the other calls remove nothing. -/
def syscall.names_after (names : List named_resource) : syscall → List named_resource
  | syscall.sem_unlink name => names.filter fun r => r ≠ named_resource.sem name
  | syscall.shm_unlink name => names.filter fun r => r ≠ named_resource.shm name
  | _ => names

/-- The named objects that exist after a sequence of library calls. -/
def names_after (calls : List syscall) (names : List named_resource) : List named_resource :=
  calls.foldl syscall.names_after names

/-- Which of the checked calls in the exit code of a generator succeed. -/
structure generator_exit_results where
  sem_close_free_ok : Bool
  sem_close_used_ok : Bool
  munmap_ok : Bool
  close_ok : Bool
deriving DecidableEq, Repr

/-- Lines 314-327 of the generator's `main`: the library calls it makes, in order, and
the exit status.  A checked call that fails ends the process through
`printErrorAndExit`; the two `sem_unlink` calls are not checked. -/
def generator_exit (ok : generator_exit_results) : List syscall × Int :=
  if !ok.sem_close_free_ok then ([syscall.sem_close_free], EXIT_FAILURE)
  else if !ok.sem_close_used_ok then
    ([syscall.sem_close_free, syscall.sem_close_used], EXIT_FAILURE)
  else if !ok.munmap_ok then
    ([syscall.sem_close_free, syscall.sem_close_used, syscall.sem_unlink "/free_sem",
      syscall.sem_unlink "/used_sem", syscall.munmap], EXIT_FAILURE)
  else if !ok.close_ok then
    ([syscall.sem_close_free, syscall.sem_close_used, syscall.sem_unlink "/free_sem",
      syscall.sem_unlink "/used_sem", syscall.munmap, syscall.close], EXIT_FAILURE)
  else
    ([syscall.sem_close_free, syscall.sem_close_used, syscall.sem_unlink "/free_sem",
      syscall.sem_unlink "/used_sem", syscall.munmap, syscall.close], EXIT_SUCCESS)

/-- The library calls that generator `i` has made so far. -/
def System.calls_of (s : System) (i : Nat) : List syscall :=
  (s.gen_calls.filter fun p => p.1 = i).map Prod.snd

/-- A run in which a signal ends the supervisor's loop, the supervisor sets `stop`, and
the one generator then leaves its loop and exits, before the supervisor cleans up. -/
def System.generator_exit_actions : List SystemAction :=
  [SystemAction.signal, SystemAction.sup, SystemAction.sup, SystemAction.gen 0 ⟨[]⟩,
   SystemAction.gen 0 ⟨[]⟩]

/-- The state that `System.generator_exit_actions` reaches from the initial system with
one generator. -/
def System.generator_exit_demo : System :=
  { myshm := { buffer := List.replicate 12 ⟨[]⟩, read_index := 0, write_index := 0,
               stop := true }
    free_count := 12
    used_count := 0
    sup := { supervisor := ⟨INT_MAX, 0⟩, quit := true, best_solution := INT_MAX, stdout := [] }
    sup_at := sup_pc.cleanup
    gens := [gen_pc.exited]
    abandoned := 0
    sup_calls := []
    gen_calls := generator_cleanup.map (fun c => (0, c))
    stderr := [] }

/-! ## Parsing of the arguments

The C library function `strtol` is embedded as ISO C specifies it for base 10, with a
`long` of 64 bits; a C string is the list of its characters before the terminating
NUL, and the pointer `strtol` stores through `endptr` is the rest of the string. -/

/-- The constant `INT_MIN` of a 32-bit `int`. -/
abbrev INT_MIN : Int := -2147483648

/-- The constant `LONG_MAX` of a 64-bit `long`. -/
abbrev LONG_MAX : Int := 9223372036854775807

/-- The constant `LONG_MIN` of a 64-bit `long`. -/
abbrev LONG_MIN : Int := -9223372036854775808

/-- The C library predicate `isspace` in the C locale. -/
def isspace (c : Char) : Bool :=
  c = ' ' || c = '\t' || c = '\n' || c = Char.ofNat 11 || c = Char.ofNat 12 || c = '\r'

/-- The digits of the subject sequence of `strtol`: the value of the longest run of
decimal digits, continuing from `acc`, and what follows it. -/
def strtol.digits : List Char → Nat → Nat × List Char
  | [], acc => (acc, [])
  | c :: rest, acc =>
    if c.isDigit then strtol.digits rest (10 * acc + (c.toNat - '0'.toNat))
    else (acc, c :: rest)

/-- The C library function `strtol (nptr, &endptr, 10)`: the value returned and
`endptr`.  Leading white space is skipped, a sign is optional; without a digit there is
no conversion, the value is 0 and `endptr` is `nptr`; a value outside `long` is clamped. -/
def strtol (nptr : List Char) : Int × List Char :=
  let s := nptr.dropWhile isspace
  let negative : Bool := s.head? = some '-'
  let s := if s.head? = some '-' ∨ s.head? = some '+' then s.tail else s
  if s.head?.map Char.isDigit = some true then
    let r := strtol.digits s 0
    let v : Int := if negative then -(r.1 : Int) else (r.1 : Int)
    (max LONG_MIN (min LONG_MAX v), r.2)
  else (0, nptr)

/-- The conversion `(int) ret` of a `long` to a 32-bit `int`, which keeps the value
when it fits and wraps modulo `2^32` otherwise. -/
def int_of_long (ret : Int) : Int :=
  (ret + 2147483648) % 4294967296 - 2147483648

/-- The function `readIntOptarg` (supervisor.c:56) on the string `optarg`; `none` is
the exit through `printErrorAndExit`. -/
def readIntOptarg (optarg : List Char) : Option Int :=
  let r := strtol optarg
  if r.2 ≠ [] ∨ r.1 > INT_MAX then none else some (int_of_long r.1)

/-- What `getopt (argc, argv, "n:w:p")` returns at one call before it returns -1: an
option character with its `optarg`, or `?` for an unknown option or a missing
argument. -/
inductive getopt_result where
  | n (optarg : List Char)
  | w (optarg : List Char)
  | p
  | colon
  | question
deriving DecidableEq, Repr

/-- The loop of `getArgrumentsSetSupervisor` over the results of `getopt`. -/
def getArgrumentsSetSupervisor.loop :
    List getopt_result → Nat → Nat → supervisor_t → Option (Nat × Nat × supervisor_t)
  | [], count_n, count_w, supervisor => some (count_n, count_w, supervisor)
  | getopt_result.n optarg :: rest, count_n, count_w, supervisor =>
    if count_n = 0 then
      (readIntOptarg optarg).bind fun limit =>
        getArgrumentsSetSupervisor.loop rest (count_n + 1) count_w
          { supervisor with limit := limit }
    else none
  | getopt_result.w optarg :: rest, count_n, count_w, supervisor =>
    if count_w = 0 then
      (readIntOptarg optarg).bind fun delay =>
        getArgrumentsSetSupervisor.loop rest count_n (count_w + 1)
          { supervisor with delay := delay }
    else none
  | getopt_result.colon :: _, _, _, _ => none
  | getopt_result.p :: rest, count_n, count_w, supervisor =>
    getArgrumentsSetSupervisor.loop rest count_n count_w supervisor
  | getopt_result.question :: _, _, _, _ => none

/-- The function `getArgrumentsSetSupervisor` (supervisor.c:76) on the sequence of
results of `getopt`; `none` is the exit through `printErrorAndExit`. -/
def getArgrumentsSetSupervisor (results : List getopt_result) (supervisor : supervisor_t) :
    Option supervisor_t :=
  (getArgrumentsSetSupervisor.loop results 0 0 supervisor).map fun r =>
    let supervisor := r.2.2
    let supervisor := if r.1 = 0 then { supervisor with limit := INT_MAX } else supervisor
    if r.2.1 = 0 then { supervisor with delay := 0 } else supervisor

/-- The function `parseStringToInteger` (generator.c:40); `none` is the exit through
`printErrorAndExit`. -/
def parseStringToInteger (str : List Char) : Option Int :=
  let r := strtol str
  if r.2 ≠ [] ∨ r.1 > INT_MAX then none else some (int_of_long r.1)

/-- The function `validateEdge` (generator.c:59): the edge it appends to
`list_of_edges`; `none` is the exit through `printErrorAndExit`. -/
def validateEdge (input : List Char) (list_of_edges : list_of_edges_t) :
    Option list_of_edges_t :=
  if '-' ∈ input then
    let part1 := input.takeWhile fun c => c ≠ '-'
    let part2 := (input.dropWhile fun c => c ≠ '-').tail
    (parseStringToInteger part1).bind fun start =>
    (parseStringToInteger part2).bind fun end_ =>
    some ⟨list_of_edges.list ++ [⟨start, end_⟩]⟩
  else none

/-- The loop of `validateAndSetListOfEdges` over `argv[1] .. argv[argc - 1]`. -/
def validateAndSetListOfEdges.loop : List (List Char) → list_of_edges_t → Option list_of_edges_t
  | [], list_of_edges => some list_of_edges
  | arg :: rest, list_of_edges =>
    (validateEdge arg list_of_edges).bind fun l => validateAndSetListOfEdges.loop rest l

/-- The function `validateAndSetListOfEdges` (generator.c:94); `args` is
`argv[1] .. argv[argc - 1]`, and `none` is the exit through `printErrorAndExit`. -/
def validateAndSetListOfEdges (args : List (List Char)) : Option list_of_edges_t :=
  if args.length + 1 = 1 then none
  else if (args.length + 1) - 1 > DEFAULT_EDGES_AMOUNT then none
  else validateAndSetListOfEdges.loop args ⟨[]⟩

/-- The 21 tokens `0-1 2-3 ... 40-41`. -/
def disjoint_tokens : List (List Char) :=
  ["0-1", "2-3", "4-5", "6-7", "8-9", "10-11", "12-13", "14-15", "16-17", "18-19",
   "20-21", "22-23", "24-25", "26-27", "28-29", "30-31", "32-33", "34-35", "36-37",
   "38-39", "40-41"].map String.toList

/-- The number that a run of decimal digits denotes. -/
def decimal_value (ds : List Char) : Nat :=
  ds.foldl (fun acc c => 10 * acc + (c.toNat - '0'.toNat)) 0

/-- The text of a decimal integer: a minus sign if `negative`, then the digits `ds`. -/
def signed_decimal (negative : Bool) (ds : List Char) : List Char :=
  (if negative then ['-'] else []) ++ ds

/-- The integer that `signed_decimal negative ds` denotes. -/
def signed_value (negative : Bool) (ds : List Char) : Int :=
  if negative then -(decimal_value ds : Int) else (decimal_value ds : Int)

/-! ## Two generators at once -/

/-- The number of generators between `sem_wait(free_sem)` and `sem_post(used_sem)`. -/
def System.gens_in_flight (s : System) : Nat :=
  (s.gens.map gen_pc.in_flight).sum

/-- Two generators pass `sem_wait(free_sem)` and the stop test one after the other, so
that both are at the store into `buffer[write_index]`. -/
def System.race_enter : List SystemAction :=
  List.replicate 3 (SystemAction.gen 0 ⟨[⟨1, 0⟩]⟩)
    ++ List.replicate 3 (SystemAction.gen 1 ⟨[⟨2, 0⟩, ⟨2, 1⟩]⟩)

/-- After `System.race_enter`, generator 0 stores the Solution `1-0` and then generator
1 stores the Solution `2-0 2-1`. -/
def System.race_stores : List SystemAction :=
  System.race_enter ++ [SystemAction.gen 0 ⟨[⟨1, 0⟩]⟩, SystemAction.gen 1 ⟨[⟨2, 0⟩, ⟨2, 1⟩]⟩]

/-- After `System.race_stores`, both generators update `write_index` and post
`used_sem`. -/
def System.race_actions : List SystemAction :=
  System.race_stores
    ++ [SystemAction.gen 0 ⟨[]⟩, SystemAction.gen 1 ⟨[]⟩, SystemAction.gen 0 ⟨[]⟩,
        SystemAction.gen 1 ⟨[]⟩]

/-- The state that `System.race_enter` reaches from the initial system with two
generators. -/
def System.race_demo : System :=
  { myshm := { buffer := List.replicate 12 ⟨[]⟩, read_index := 0, write_index := 0,
               stop := false }
    free_count := 10
    used_count := 0
    sup := supervisor_globals.initial INT_MAX
    sup_at := sup_pc.loop_test
    gens := [gen_pc.write, gen_pc.write]
    abandoned := 0
    sup_calls := []
    gen_calls := []
    stderr := [] }

end FbArcSet

/-!
# myexpand: tabs to spaces

A shallow embedding of `replaceTabsWithSpaces` of `src/myexpand/myexpand.c`.  The input
stream is the list of the characters that `fgetc` returns before `EOF`, the output
stream is the list of the characters written with `fputc`, and the `int` counter
`position` is a natural number.
-/

namespace MyExpand

/-- The constant `DEFAULT_TABSTOP`. -/
abbrev DEFAULT_TABSTOP : Nat := 8

/-- The constant `MAX_TABSTOP`. -/
abbrev MAX_TABSTOP : Nat := 64

/-- The state of the loop of `replaceTabsWithSpaces`: what has been written to `output`
and the variable `position`. -/
structure expand_state where
  output : List Char
  position : Nat
deriving DecidableEq, Repr

/-- The inner loop `for(int i = 0; i < spaces; i++)` (myexpand.c:30), with `spaces - i`
rounds left. -/
def replaceTabsWithSpaces.spaces : Nat → expand_state → expand_state
  | 0, st => st
  | n + 1, st => replaceTabsWithSpaces.spaces n ⟨st.output ++ [' '], st.position + 1⟩

/-- The body of the `while` loop of `replaceTabsWithSpaces` (myexpand.c:28-41) for the
character read. -/
def replaceTabsWithSpaces.step (tabstop : Nat) (st : expand_state) (character : Char) :
    expand_state :=
  if character = '\t' then
    replaceTabsWithSpaces.spaces (tabstop - st.position % tabstop) st
  else
    ⟨st.output ++ [character], if character = '\n' then 0 else st.position + 1⟩

/-- The function `replaceTabsWithSpaces` (myexpand.c:24): what it writes for `input`. -/
def replaceTabsWithSpaces (tabstop : Nat) (input : List Char) : List Char :=
  (input.foldl (replaceTabsWithSpaces.step tabstop) ⟨[], 0⟩).output

/-- The output column: the number of characters written since the last newline. -/
def column (output : List Char) : Nat :=
  (output.reverse.takeWhile fun c => c ≠ '\n').length

end MyExpand

/-!
# forksort: merge sort of lines with child processes

A shallow embedding of `src/forksort/forksort.c`.  A process is the function from the
bytes on its standard input to the bytes it writes to standard output; a pipe hands the
bytes written at one end to the reader at the other end; `fork`, `execlp` of
`./forksort` and the pipes of `makeChildProcess` become a recursive call, with a bound
`fuel` on the depth of the process tree.  Library calls are taken to succeed.
-/

namespace ForkSort

/-- The NUL character, which ends a C string. -/
def NUL : Char := Char.ofNat 0

/-- The C string that starts a buffer: the characters before the first NUL. -/
def c_string (buffer : List Char) : List Char :=
  buffer.takeWhile fun c => c ≠ NUL

/-- The lines that successive calls of `getline` return on a stream until `getline`
returns -1; `line` holds the characters of the current line read so far.  A line ends
after a newline, or at the end of the stream if it is not empty. -/
def getlines.loop : List Char → List Char → List (List Char)
  | [], line => if line = [] then [] else [line]
  | c :: stream, line =>
    if c = '\n' then (line ++ [c]) :: getlines.loop stream []
    else getlines.loop stream (line ++ [c])

/-- The lines that successive calls of `getline` return on `stream`. -/
def getlines (stream : List Char) : List (List Char) :=
  getlines.loop stream []

/-- What the calls `fprintf(file, "%s", line)` write for the lines in turn. -/
def fprintf_lines (lines : List (List Char)) : List Char :=
  lines.foldr (fun line written => c_string line ++ written) []

/-- The comparison of `strcmp` on two C strings, characters taken as unsigned. -/
def strcmp.loop : List Char → List Char → Int
  | [], [] => 0
  | [], c :: _ => -(c.toNat : Int)
  | c :: _, [] => (c.toNat : Int)
  | a :: s1, b :: s2 => if a = b then strcmp.loop s1 s2 else (a.toNat : Int) - (b.toNat : Int)

/-- The C library function `strcmp` on the strings held in two buffers. -/
def strcmp (line1 line2 : List Char) : Int :=
  strcmp.loop (c_string line1) (c_string line2)

/-- The loop of `splitLinesInTwoParts` (forksort.c:168) over the lines still on
standard input; `files` is what has been written to `child1->file` and to
`child2->file`. -/
def splitLinesInTwoParts.loop :
    List (List Char) → Nat → List Char × List Char → List Char × List Char
  | [], _, files => files
  | line :: rest, count, files =>
    if count % 2 = 0 then
      splitLinesInTwoParts.loop rest (count + 1) (files.1 ++ c_string line, files.2)
    else
      splitLinesInTwoParts.loop rest (count + 1) (files.1, files.2 ++ c_string line)

/-- The function `mergeLinesFromTwoChildren` while `line1` is held and the lines of
child 2 are consumed: `first` is the merge that continues with the next line of
child 1. -/
def mergeLinesFromTwoChildren.second (line1 : List Char) (lines1 : List (List Char))
    (first : List (List Char) → List (List Char)) : List (List Char) → List (List Char)
  | [] => line1 :: lines1
  | line2 :: lines2 =>
    if strcmp line1 line2 ≤ 0 then line1 :: first (line2 :: lines2)
    else line2 :: mergeLinesFromTwoChildren.second line1 lines1 first lines2

/-- The function `mergeLinesFromTwoChildren` (forksort.c:188): the lines it prints,
given the lines that `getline` returns on the files of child 1 and of child 2. -/
def mergeLinesFromTwoChildren : List (List Char) → List (List Char) → List (List Char)
  | [] => fun lines2 => lines2
  | line1 :: lines1 =>
    mergeLinesFromTwoChildren.second line1 lines1 (mergeLinesFromTwoChildren lines1)

/-- The function `main` (forksort.c:248) of a process with the bytes `stdin` on its
standard input: the bytes it writes to standard output; `none` when the process tree
is deeper than `fuel`. -/
def forksort : Nat → List Char → Option (List Char)
  | 0, _ => none
  | fuel + 1, stdin =>
    match getlines stdin with
    | [] => some []
    | [line1] => some (c_string line1)
    | line1 :: line2 :: rest =>
      let files := splitLinesInTwoParts.loop rest 0 (c_string line1, c_string line2)
      (forksort fuel files.1).bind fun out1 =>
      (forksort fuel files.2).bind fun out2 =>
      some (fprintf_lines (mergeLinesFromTwoChildren (getlines out1) (getlines out2)))

/-- A complete line without NUL: characters other than newline and NUL, then a
newline. -/
def is_line (line : List Char) : Prop :=
  ∃ body : List Char, line = body ++ ['\n'] ∧ '\n' ∉ body ∧ NUL ∉ body

/-- The lines at the even and at the odd counts, counting from `count`. -/
def deal : List (List Char) → Nat → List (List Char) × List (List Char)
  | [], _ => ([], [])
  | line :: rest, count =>
    if count % 2 = 0 then (line :: (deal rest (count + 1)).1, (deal rest (count + 1)).2)
    else ((deal rest (count + 1)).1, line :: (deal rest (count + 1)).2)

end ForkSort

namespace FbArcSet

/-! ## The channel is first in, first out -/

theorem Channel.fifo_inv_initial (limit : Int) (buffer : List list_of_edges_t)
    (hb : buffer.length = BUFFER_SIZE) : (Channel.initial limit buffer).fifo_inv := by
  refine ⟨hb, List.prefix_rfl, fun _ => ⟨rfl, rfl, rfl, rfl, ?_⟩⟩
  intro j _ h2
  simp [Channel.initial] at h2

theorem list_prefix_snoc_getD {α : Type} (l₁ l₂ : List α) (d : α) (h : l₁ <+: l₂)
    (hlt : l₁.length < l₂.length) : l₁ ++ [l₂.getD l₁.length d] <+: l₂ := by
  rw [List.prefix_iff_eq_take] at h ⊢
  rw [List.length_append, List.length_singleton, List.take_succ, ← h,
    List.getD_eq_getElem?_getD, List.getElem?_eq_getElem hlt]
  rfl

theorem readSolution_limit_zero (myshm : myshm_t) (g : supervisor_globals)
    (hl : g.supervisor.limit = 0) :
    readSolution myshm g =
      (myshm, { g with stdout := g.stdout ++ [stdout_line.best_solution_removes g.best_solution]
                       quit := true }) ∧
    readSolution.solution myshm g = none := by
  constructor
  · unfold readSolution; rw [if_pos hl]
  · unfold readSolution.solution; rw [if_pos hl]

theorem readSolution_empty (myshm : myshm_t) (g : supervisor_globals)
    (hl : g.supervisor.limit ≠ 0)
    (hz : (myshm.buffer.getD myshm.read_index ⟨[]⟩).size = 0) :
    readSolution myshm g =
      (myshm, { g with stdout := g.stdout ++ [stdout_line.graph_is_acyclic], quit := true }) ∧
    readSolution.solution myshm g = some (myshm.buffer.getD myshm.read_index ⟨[]⟩) := by
  constructor
  · unfold readSolution; rw [if_neg hl]; dsimp only; rw [if_pos hz]
  · unfold readSolution.solution; rw [if_neg hl]

theorem readSolution_nonempty (myshm : myshm_t) (g : supervisor_globals)
    (hl : g.supervisor.limit ≠ 0)
    (hz : (myshm.buffer.getD myshm.read_index ⟨[]⟩).size ≠ 0) :
    readSolution myshm g =
      ({ myshm with read_index := (myshm.read_index + 1) % BUFFER_SIZE },
       { g with
         best_solution :=
           if ((myshm.buffer.getD myshm.read_index ⟨[]⟩).size : Int) < g.best_solution then
             ((myshm.buffer.getD myshm.read_index ⟨[]⟩).size : Int)
           else g.best_solution
         supervisor := { g.supervisor with limit := g.supervisor.limit - 1 } }) ∧
    readSolution.solution myshm g = some (myshm.buffer.getD myshm.read_index ⟨[]⟩) := by
  constructor
  · unfold readSolution; rw [if_neg hl]; dsimp only; rw [if_neg hz]
  · unfold readSolution.solution; rw [if_neg hl]

theorem Channel.fifo_inv_push (c c1 : Channel) (solution : list_of_edges_t)
    (hc : c.fifo_inv) (h : c.push solution = some c1) : c1.fifo_inv := by
  unfold Channel.push at h
  split at h
  · rename_i hg
    obtain ⟨hfree, _⟩ := hg
    injection h with h
    subst h
    obtain ⟨hlen, hpre, hlive⟩ := hc
    unfold Channel.fifo_inv writeSolution
    dsimp only
    refine ⟨?_, ?_, ?_⟩
    · rw [List.length_set]; exact hlen
    · exact hpre.trans (List.prefix_append _ _)
    · intro hq
      obtain ⟨hw, hr, hcnt, hsum, hbuf⟩ := hlive hq
      simp only [BUFFER_SIZE] at hw hr hsum hbuf hlen ⊢
      rw [List.length_append, List.length_singleton]
      refine ⟨by omega, hr, by omega, by omega, ?_⟩
      intro j hj1 hj2
      by_cases hjw : j = c.written.length
      · subst hjw
        rw [hw, List.getD_eq_getElem?_getD, List.getElem?_set_self (by rw [hlen]; omega),
          List.getD_append_right _ _ _ _ (le_refl _)]
        simp
      · have hjlt : j < c.written.length := by omega
        have hne : c.written.length % 12 ≠ j % 12 := by omega
        rw [hw, List.getD_eq_getElem?_getD, List.getElem?_set_ne hne,
          ← List.getD_eq_getElem?_getD, List.getD_append _ _ _ _ hjlt]
        exact hbuf j hj1 hjlt
  · cases h

theorem Channel.fifo_inv_pop (c c1 : Channel) (hc : c.fifo_inv) (h : c.pop = some c1) :
    c1.fifo_inv := by
  unfold Channel.pop at h
  split at h
  · rename_i hg
    obtain ⟨hused, hq⟩ := hg
    injection h with h
    subst h
    obtain ⟨hlen, hpre, hlive⟩ := hc
    obtain ⟨hw, hr, hcnt, hsum, hbuf⟩ := hlive hq
    have hlt : c.consumed.length < c.written.length := by omega
    have hslot : c.myshm.buffer.getD c.myshm.read_index ⟨[]⟩
        = c.written.getD c.consumed.length ⟨[]⟩ := by
      rw [hr]; exact hbuf _ (le_refl _) hlt
    unfold Channel.fifo_inv
    dsimp only
    by_cases hl : c.sup.supervisor.limit = 0
    · obtain ⟨e1, e2⟩ := readSolution_limit_zero c.myshm c.sup hl
      rw [e1, e2]
      exact ⟨hlen, hpre, fun hq1 => by cases hq1⟩
    · by_cases hz : (c.myshm.buffer.getD c.myshm.read_index ⟨[]⟩).size = 0
      · obtain ⟨e1, e2⟩ := readSolution_empty c.myshm c.sup hl hz
        rw [e1, e2, hslot]
        exact ⟨hlen, list_prefix_snoc_getD _ _ _ hpre hlt, fun hq1 => by cases hq1⟩
      · obtain ⟨e1, e2⟩ := readSolution_nonempty c.myshm c.sup hl hz
        rw [e1, e2, hslot]
        dsimp only
        refine ⟨hlen, list_prefix_snoc_getD _ _ _ hpre hlt, fun _ => ?_⟩
        simp only [BUFFER_SIZE] at hw hr hsum hbuf hlen ⊢
        rw [List.length_append, List.length_singleton, hq]
        refine ⟨hw, by omega, by omega, ?_, ?_⟩
        · simp only [Bool.false_eq_true, if_false]
          omega
        · intro j hj1 hj2
          exact hbuf j (by omega) hj2
  · cases h

theorem Channel.fifo_inv_set_stop (c c1 : Channel) (hc : c.fifo_inv)
    (h : c.set_stop = some c1) : c1.fifo_inv := by
  unfold Channel.set_stop at h
  split at h
  · rename_i hq
    injection h with h
    subst h
    obtain ⟨hlen, hpre, _⟩ := hc
    refine ⟨hlen, hpre, ?_⟩
    intro hq1
    simp only at hq1
    rw [hq] at hq1
    cases hq1
  · cases h

theorem Channel.fifo_inv_step (c c1 : Channel) (a : ChannelAction) (hc : c.fifo_inv)
    (h : c.step a = some c1) : c1.fifo_inv := by
  cases a with
  | push solution => exact Channel.fifo_inv_push c c1 solution hc h
  | pop => exact Channel.fifo_inv_pop c c1 hc h
  | set_stop => exact Channel.fifo_inv_set_stop c c1 hc h

/-- Induction over an interleaving: what one step preserves, a run preserves. -/
theorem Channel.run_invariant (P : Channel → Prop)
    (hstep : ∀ c c1 a, P c → c.step a = some c1 → P c1)
    (actions : List ChannelAction) :
    ∀ c c1, P c → c.run actions = some c1 → P c1 := by
  induction actions with
  | nil =>
    intro c c1 hc h
    simp only [Channel.run, Option.some.injEq] at h
    exact h ▸ hc
  | cons a rest ih =>
    intro c c1 hc h
    simp only [Channel.run] at h
    cases hs : c.step a with
    | none => rw [hs] at h; cases h
    | some c2 =>
      rw [hs] at h
      exact ih c2 c1 (hstep c c2 a hc hs) h

/-- C1. In every interleaving of atomic pushes and pops that starts from the initial
channel (both indices 0, `free_count = 12`, `used_count = 0`, a buffer of 12 slots), the
Solutions the supervisor has read are, in order and unchanged, the first Solutions that
were written: the k-th Solution read is the k-th Solution written. -/
theorem Channel.reads_follow_writes (limit : Int) (buffer : List list_of_edges_t)
    (hb : buffer.length = BUFFER_SIZE) (actions : List ChannelAction) (c : Channel)
    (h : (Channel.initial limit buffer).run actions = some c) :
    c.consumed <+: c.written :=
  (Channel.run_invariant Channel.fifo_inv Channel.fifo_inv_step actions _ c
    (Channel.fifo_inv_initial limit buffer hb) h).2.1

/-- C1 at two pushes followed by one pop. -/
theorem Channel.reads_follow_writes_witness :
    (Channel.initial 5 (List.replicate 12 ⟨[]⟩)).run Channel.demo_actions = some Channel.demo ∧
      Channel.demo.consumed <+: Channel.demo.written :=
  ⟨by decide, Channel.reads_follow_writes 5 (List.replicate 12 ⟨[]⟩) (by decide) Channel.demo_actions
    Channel.demo (by decide)⟩

/-! ## The semaphore tokens -/

theorem sum_map_set {α : Type} (f : α → Nat) (l : List α) (i : Nat) (a b : α)
    (h : l.get? i = some a) :
    ((l.set i b).map f).sum = (l.map f).sum - f a + f b ∧ f a ≤ (l.map f).sum := by
  induction l generalizing i with
  | nil => cases h
  | cons x rest ih =>
    cases i with
    | zero =>
      simp only [List.get?_cons_zero, Option.some.injEq] at h
      subst h
      simp only [List.set_cons_zero, List.map_cons, List.sum_cons]
      omega
    | succ i =>
      simp only [List.get?_cons_succ] at h
      have := ih i h
      simp only [List.set_cons_succ, List.map_cons, List.sum_cons]
      omega

theorem System.tokens_sup_step (s s1 : System) (h : s.sup_step = some s1) :
    s1.tokens = s.tokens := by
  unfold System.sup_step at h
  unfold System.tokens System.in_flight
  split at h
  · rename_i hpc
    split at h <;> (injection h with h; subst h; simp [hpc, sup_pc.in_flight])
  · rename_i hpc
    split at h
    · injection h with h; subst h; simp only [hpc, sup_pc.in_flight]; try omega
    · cases h
  · rename_i hpc
    injection h with h; subst h; simp [hpc, sup_pc.in_flight]
  · rename_i hpc
    split at h <;> (injection h with h; subst h; simp only [hpc, sup_pc.in_flight]; try omega)
  · rename_i hpc
    injection h with h; subst h; simp only [hpc, sup_pc.in_flight]; try omega
  · rename_i hpc
    injection h with h; subst h; simp [hpc, sup_pc.in_flight]
  · rename_i hpc
    injection h with h; subst h; simp [hpc, sup_pc.in_flight]
  · cases h

theorem System.tokens_gen_step (s s1 : System) (i : Nat) (solution : list_of_edges_t)
    (h : s.gen_step i solution = some s1) : s1.tokens = s.tokens := by
  unfold System.gen_step at h
  unfold System.tokens System.in_flight
  split at h
  · cases h
  · rename_i hpc
    split at h <;>
      (injection h with h; subst h; dsimp only
       obtain ⟨e, _⟩ := sum_map_set gen_pc.in_flight s.gens i _ _ hpc
       rw [e]; simp only [gen_pc.in_flight]; omega)
  · rename_i hpc
    split at h
    · injection h with h; subst h; dsimp only
      obtain ⟨e, _⟩ := sum_map_set gen_pc.in_flight s.gens i _ _ hpc
      rw [e]; simp only [gen_pc.in_flight]; omega
    · cases h
  · rename_i hpc
    split at h <;>
      (injection h with h; subst h; dsimp only
       obtain ⟨e, hle⟩ := sum_map_set gen_pc.in_flight s.gens i _ _ hpc
       rw [e]; simp only [gen_pc.in_flight] at hle ⊢; omega)
  · rename_i hpc
    injection h with h; subst h; dsimp only
    obtain ⟨e, hle⟩ := sum_map_set gen_pc.in_flight s.gens i _ _ hpc
    rw [e]; simp only [gen_pc.in_flight] at hle ⊢; omega
  · rename_i hpc
    injection h with h; subst h; dsimp only
    obtain ⟨e, hle⟩ := sum_map_set gen_pc.in_flight s.gens i _ _ hpc
    rw [e]; simp only [gen_pc.in_flight] at hle ⊢; omega
  · rename_i hpc
    injection h with h; subst h; dsimp only
    obtain ⟨e, hle⟩ := sum_map_set gen_pc.in_flight s.gens i _ _ hpc
    rw [e]; simp only [gen_pc.in_flight] at hle ⊢; omega
  · rename_i hpc
    injection h with h; subst h; dsimp only
    obtain ⟨e, hle⟩ := sum_map_set gen_pc.in_flight s.gens i _ _ hpc
    rw [e]; simp only [gen_pc.in_flight] at hle ⊢; omega
  · cases h

theorem System.tokens_step (s s1 : System) (a : SystemAction) (h : s.step a = some s1) :
    s1.tokens = s.tokens := by
  cases a with
  | sup => exact System.tokens_sup_step s s1 h
  | sup_eintr =>
    simp only [System.step, System.sup_eintr] at h
    split at h
    · rename_i hg
      injection h with h; subst h
      simp [System.tokens, System.in_flight, hg.1, sup_pc.in_flight]
    · cases h
  | signal =>
    simp only [System.step, System.signal] at h
    split at h
    · cases h
    · injection h with h; subst h
      simp [System.tokens, System.in_flight]
  | gen i solution => exact System.tokens_gen_step s s1 i solution h

/-- Induction over a run of the system. -/
theorem System.run_preserves (P : System → Prop)
    (hstep : ∀ s s1 a, P s → s.step a = some s1 → P s1)
    (actions : List SystemAction) :
    ∀ s s1, P s → s.run actions = some s1 → P s1 := by
  induction actions with
  | nil =>
    intro s s1 hs h
    simp only [System.run, Option.some.injEq] at h
    exact h ▸ hs
  | cons a rest ih =>
    intro s s1 hs h
    simp only [System.run] at h
    cases hst : s.step a with
    | none => rw [hst] at h; cases h
    | some s2 =>
      rw [hst] at h
      exact ih s2 s1 (hstep s s2 a hs hst) h

theorem System.tokens_initial (limit : Int) (buffer : List list_of_edges_t) (n : Nat) :
    (System.initial limit buffer n).tokens = BUFFER_SIZE := by
  simp [System.tokens, System.in_flight, System.initial, sup_pc.in_flight]
  exact Or.inr rfl

/-- C2, as the code has it. In every state the supervisor and any number of generators
reach, `free_count + used_count`, plus the number of processes between a `sem_wait` and
the matching `sem_post`, plus the number of tokens abandoned at a `break` (the
supervisor after `readSolution` has set `quit`, a generator that saw `stop` after its
wait), is 12; so with no process in flight and no token abandoned,
`free_count + used_count = 12`. -/
theorem System.token_conservation (limit : Int) (buffer : List list_of_edges_t) (n : Nat)
    (actions : List SystemAction) (s : System)
    (h : (System.initial limit buffer n).run actions = some s) :
    s.free_count + s.used_count + s.in_flight + s.abandoned = BUFFER_SIZE ∧
      (s.in_flight = 0 → s.abandoned = 0 → s.free_count + s.used_count = BUFFER_SIZE) := by
  have key : s.tokens = BUFFER_SIZE :=
    System.run_preserves (fun t => t.tokens = BUFFER_SIZE)
      (fun t t1 a ht hs => (System.tokens_step t t1 a hs).trans ht) actions _ s
      (System.tokens_initial limit buffer n) h
  unfold System.tokens at key
  refine ⟨key, fun h1 h2 => ?_⟩
  rw [h1, h2] at key
  simpa using key

/-- C2 at the run in which one generator publishes an empty Solution and the
supervisor reads it. -/
theorem System.token_conservation_witness :
    (System.initial INT_MAX (List.replicate 12 ⟨[]⟩) 1).run System.demo_actions
        = some System.demo ∧
      (System.demo.free_count + System.demo.used_count + System.demo.in_flight
          + System.demo.abandoned = BUFFER_SIZE ∧
        (System.demo.in_flight = 0 → System.demo.abandoned = 0 →
          System.demo.free_count + System.demo.used_count = BUFFER_SIZE)) :=
  ⟨by decide, System.token_conservation INT_MAX (List.replicate 12 ⟨[]⟩) 1
    System.demo_actions System.demo (by decide)⟩

/-- C2 as stated fails. One generator publishes an empty Solution, the supervisor reads
it and leaves through `break` without `sem_post(free_sem)`, sets `stop` and exits; the
generator then sees `stop` and exits.  No process is between a wait and a post, and
`free_count + used_count` is 11. -/
theorem System.tokens_lost_after_break :
    ((System.initial INT_MAX (List.replicate 12 ⟨[]⟩) 1).run System.demo_actions).map
        (fun s => (s.sup_at, s.gens, s.in_flight, s.free_count, s.used_count))
      = some (sup_pc.exited EXIT_SUCCESS, [gen_pc.exited], 0, 11, 0) := by
  decide

/-! ## The best Solution and the limit -/

theorem min_size_snoc (consumed : List list_of_edges_t) (s : list_of_edges_t) :
    min_size (consumed ++ [s]) = min (min_size consumed) (s.size : Int) := by
  simp [min_size, List.foldl_append]

theorem min_size_nonempty_snoc_empty (consumed : List list_of_edges_t) (s : list_of_edges_t)
    (hz : s.size = 0) : min_size_nonempty (consumed ++ [s]) = min_size_nonempty consumed := by
  simp [min_size_nonempty, List.filter_append, hz]

theorem min_size_nonempty_snoc (consumed : List list_of_edges_t) (s : list_of_edges_t)
    (hz : s.size ≠ 0) :
    min_size_nonempty (consumed ++ [s])
      = min (min_size_nonempty consumed) (s.size : Int) := by
  unfold min_size_nonempty
  rw [List.filter_append, List.filter_cons_of_pos (by simpa using hz), List.filter_nil,
    min_size_snoc]

theorem Channel.best_solution_step (c c1 : Channel) (a : ChannelAction)
    (h : c.step a = some c1) :
    c1.sup.best_solution ≤ c.sup.best_solution ∧
      (c.sup.best_solution = min_size_nonempty c.consumed →
        c1.sup.best_solution = min_size_nonempty c1.consumed) := by
  cases a with
  | push solution =>
    simp only [Channel.step, Channel.push] at h
    split at h
    · injection h with h; subst h; exact ⟨le_refl _, fun e => e⟩
    · cases h
  | set_stop =>
    simp only [Channel.step, Channel.set_stop] at h
    split at h
    · injection h with h; subst h; exact ⟨le_refl _, fun e => e⟩
    · cases h
  | pop =>
    simp only [Channel.step, Channel.pop] at h
    split at h
    · injection h with h; subst h
      dsimp only
      by_cases hl : c.sup.supervisor.limit = 0
      · obtain ⟨e1, e2⟩ := readSolution_limit_zero c.myshm c.sup hl
        rw [e1, e2]
        exact ⟨le_refl _, fun e => e⟩
      · by_cases hz : (c.myshm.buffer.getD c.myshm.read_index ⟨[]⟩).size = 0
        · obtain ⟨e1, e2⟩ := readSolution_empty c.myshm c.sup hl hz
          rw [e1, e2]
          refine ⟨le_refl _, fun e => ?_⟩
          dsimp only
          rw [min_size_nonempty_snoc_empty _ _ hz]
          exact e
        · obtain ⟨e1, e2⟩ := readSolution_nonempty c.myshm c.sup hl hz
          rw [e1, e2]
          dsimp only
          constructor
          · split
            · exact le_of_lt (by assumption)
            · exact le_refl _
          · intro e
            rw [min_size_nonempty_snoc _ _ hz, ← e]
            split
            · rw [min_eq_right (le_of_lt (by assumption))]
            · rw [min_eq_left (not_lt.mp (by assumption))]
    · cases h

/-- C3, as the code has it. From `best_solution = INT_MAX`, after every interleaving
`best_solution` is the least size among the non-empty Solutions read so far (and
`INT_MAX` while there is none), and no further step increases it.  An empty Solution
leaves `best_solution` as it is. -/
theorem Channel.best_solution_least_nonempty (limit : Int) (buffer : List list_of_edges_t)
    (actions : List ChannelAction) (c : Channel)
    (h : (Channel.initial limit buffer).run actions = some c) :
    c.sup.best_solution = min_size_nonempty c.consumed ∧
      ∀ a c1, c.step a = some c1 → c1.sup.best_solution ≤ c.sup.best_solution :=
  ⟨Channel.run_invariant (fun t => t.sup.best_solution = min_size_nonempty t.consumed)
      (fun t t1 a ht hs => (Channel.best_solution_step t t1 a hs).2 ht) actions _ c rfl h,
    fun a c1 hs => (Channel.best_solution_step c c1 a hs).1⟩

/-- C3, as the code has it, at Solutions of sizes 2, 1 and 0 read in turn. -/
theorem Channel.best_solution_least_nonempty_witness :
    (Channel.initial INT_MAX (List.replicate 12 ⟨[]⟩)).run Channel.sizes_actions
        = some Channel.sizes_demo ∧
      (Channel.sizes_demo.sup.best_solution = min_size_nonempty Channel.sizes_demo.consumed ∧
        ∀ a c1, Channel.sizes_demo.step a = some c1 →
          c1.sup.best_solution ≤ Channel.sizes_demo.sup.best_solution) :=
  ⟨by decide, Channel.best_solution_least_nonempty INT_MAX (List.replicate 12 ⟨[]⟩)
    Channel.sizes_actions Channel.sizes_demo (by decide)⟩

/-- C3 as stated fails. The supervisor reads Solutions of sizes 2, 1 and 0; the least
size read is 0, and `best_solution` is 1. -/
theorem Channel.best_solution_skips_empty :
    ((Channel.initial INT_MAX (List.replicate 12 ⟨[]⟩)).run Channel.sizes_actions).map
        (fun c => (c.consumed.map list_of_edges_t.size, min_size c.consumed,
          c.sup.best_solution))
      = some ([2, 1, 0], 0, 1) := by
  decide

theorem Channel.limit_step (L : Int) (c c1 : Channel) (a : ChannelAction)
    (hc : 0 ≤ c.sup.supervisor.limit ∧ (c.consumed.length : Int) ≤ L ∧
      (c.sup.quit = false → (c.consumed.length : Int) + c.sup.supervisor.limit = L))
    (h : c.step a = some c1) :
    0 ≤ c1.sup.supervisor.limit ∧ (c1.consumed.length : Int) ≤ L ∧
      (c1.sup.quit = false → (c1.consumed.length : Int) + c1.sup.supervisor.limit = L) := by
  cases a with
  | push solution =>
    simp only [Channel.step, Channel.push] at h
    split at h
    · injection h with h; subst h; exact hc
    · cases h
  | set_stop =>
    simp only [Channel.step, Channel.set_stop] at h
    split at h
    · injection h with h; subst h; exact hc
    · cases h
  | pop =>
    simp only [Channel.step, Channel.pop] at h
    split at h
    · rename_i hg
      obtain ⟨h0, hle, hq⟩ := hc
      have hsum := hq hg.2
      injection h with h; subst h
      dsimp only
      by_cases hl : c.sup.supervisor.limit = 0
      · obtain ⟨e1, e2⟩ := readSolution_limit_zero c.myshm c.sup hl
        rw [e1, e2]
        exact ⟨h0, hle, fun hq1 => by cases hq1⟩
      · have h1 : 1 ≤ c.sup.supervisor.limit := by omega
        by_cases hz : (c.myshm.buffer.getD c.myshm.read_index ⟨[]⟩).size = 0
        · obtain ⟨e1, e2⟩ := readSolution_empty c.myshm c.sup hl hz
          rw [e1, e2]
          dsimp only
          rw [List.length_append, List.length_singleton]
          refine ⟨h0, ?_, fun hq1 => by cases hq1⟩
          push_cast; omega
        · obtain ⟨e1, e2⟩ := readSolution_nonempty c.myshm c.sup hl hz
          rw [e1, e2]
          dsimp only
          rw [List.length_append, List.length_singleton]
          refine ⟨by omega, ?_, fun _ => ?_⟩
          · push_cast; omega
          · push_cast; omega
    · cases h

/-- C4. With a limit `L > 0`, whatever Solutions the generators publish, the supervisor
reads at most `L` of them: the number read plus the remaining `limit` is `L` while the
supervisor runs, and once `L` have been read its next call of `readSolution` reads
nothing, leaves `read_index` where it is, prints the report and sets `quit`. -/
theorem Channel.reads_at_most_limit (L : Int) (hL : 0 < L) (buffer : List list_of_edges_t)
    (actions : List ChannelAction) (c : Channel)
    (h : (Channel.initial L buffer).run actions = some c) :
    (c.consumed.length : Int) ≤ L ∧
      (c.sup.quit = false → (c.consumed.length : Int) + c.sup.supervisor.limit = L) ∧
      ∀ c1, (c.consumed.length : Int) = L → c.pop = some c1 →
        c1.consumed = c.consumed ∧ c1.myshm = c.myshm ∧ c1.sup.quit = true ∧
        c1.sup.stdout
          = c.sup.stdout ++ [stdout_line.best_solution_removes c.sup.best_solution] := by
  have key := Channel.run_invariant
    (fun t => 0 ≤ t.sup.supervisor.limit ∧ (t.consumed.length : Int) ≤ L ∧
      (t.sup.quit = false → (t.consumed.length : Int) + t.sup.supervisor.limit = L))
    (fun t t1 a ht hs => Channel.limit_step L t t1 a ht hs) actions _ c
    ⟨le_of_lt hL, by simpa [Channel.initial] using le_of_lt hL,
      fun _ => by simp [Channel.initial, supervisor_globals.initial]⟩ h
  obtain ⟨_, hle, hq⟩ := key
  refine ⟨hle, hq, fun c1 hfull hpop => ?_⟩
  unfold Channel.pop at hpop
  split at hpop
  · rename_i hg
    have hl : c.sup.supervisor.limit = 0 := by
      have := hq hg.2
      omega
    injection hpop with hpop; subst hpop
    obtain ⟨e1, e2⟩ := readSolution_limit_zero c.myshm c.sup hl
    dsimp only
    rw [e1, e2]
    exact ⟨rfl, rfl, rfl, rfl⟩
  · cases hpop

/-- C4 at limit 1 with three Solutions on offer. -/
theorem Channel.reads_at_most_limit_witness :
    (Channel.initial 1 (List.replicate 12 ⟨[]⟩)).run Channel.limit_actions
        = some Channel.limit_demo ∧
      ((Channel.limit_demo.consumed.length : Int) ≤ 1 ∧
        (Channel.limit_demo.sup.quit = false →
          (Channel.limit_demo.consumed.length : Int)
            + Channel.limit_demo.sup.supervisor.limit = 1) ∧
        ∀ c1, (Channel.limit_demo.consumed.length : Int) = 1 →
          Channel.limit_demo.pop = some c1 →
          c1.consumed = Channel.limit_demo.consumed ∧ c1.myshm = Channel.limit_demo.myshm ∧
          c1.sup.quit = true ∧
          c1.sup.stdout = Channel.limit_demo.sup.stdout
            ++ [stdout_line.best_solution_removes Channel.limit_demo.sup.best_solution]) :=
  ⟨by decide, Channel.reads_at_most_limit 1 (by decide) (List.replicate 12 ⟨[]⟩)
    Channel.limit_actions Channel.limit_demo (by decide)⟩

/-! ## The shuffle -/

theorem generateRandomNumber_zero (r size : Nat) :
    (generateRandomNumber r 0 ((size + 1 : Nat) - 1 : Int)).toNat = r % (size + 1) := by
  unfold generateRandomNumber
  have h : ((r : Int) % (((size + 1 : Nat) : Int) - 1 - 0 + 1) + 0)
      = ((r % (size + 1) : Nat) : Int) := by
    push_cast
    ring_nf
  rw [h, Int.toNat_ofNat]

theorem getD_cons_set_perm (l : List Int) (r : Nat) (x : Int) (hr : r < l.length) :
    (l.getD r 0 :: l.set r x).Perm (x :: l) := by
  induction l generalizing r with
  | nil => simp at hr
  | cons y rest ih =>
    cases r with
    | zero => simpa using List.Perm.swap x y rest
    | succ r =>
      have hr1 : r < rest.length := by simpa using hr
      have h1 := ih r hr1
      simp only [List.getD_cons_succ, List.set_cons_succ]
      exact (List.Perm.swap y (rest.getD r 0) (rest.set r x)).trans
        ((List.Perm.cons y h1).trans (List.Perm.swap x y rest))

theorem generateRandomListOfVertices_loop_perm (rand : Nat → Nat) :
    ∀ (size : Nat) (list list2 : List Int) (k : Nat), size ≤ list.length →
      (generateRandomListOfVertices.loop rand size list list2 k).1.Perm
          (list2 ++ list.take size) ∧
        (generateRandomListOfVertices.loop rand size list list2 k).2 = k + size := by
  intro size
  induction size with
  | zero =>
    intro list list2 k _
    simp [generateRandomListOfVertices.loop]
  | succ size ih =>
    intro list list2 k hlen
    simp only [generateRandomListOfVertices.loop]
    rw [generateRandomNumber_zero]
    have hr : rand k % (size + 1) < size + 1 := Nat.mod_lt _ (Nat.succ_pos _)
    obtain ⟨h1, h2⟩ := ih (list.set (rand k % (size + 1)) (list.getD size 0))
      (list2 ++ [list.getD (rand k % (size + 1)) 0]) (k + 1)
      (by rw [List.length_set]; omega)
    refine ⟨h1.trans ?_, by rw [h2]; omega⟩
    rw [List.append_assoc, List.take_succ, List.getElem?_eq_getElem (by omega : size < list.length)]
    apply List.Perm.append_left
    simp only [List.singleton_append, Option.toList_some]
    have hget : list.getD size 0 = list[size] := List.getD_eq_getElem _ _ (by omega)
    rw [← hget]
    by_cases hrs : rand k % (size + 1) = size
    · rw [hrs, List.set_take, List.set_eq_of_length_le (by rw [List.length_take]; omega)]
      exact (List.perm_append_singleton _ _).symm
    · have hlt : rand k % (size + 1) < size := by omega
      rw [List.set_take]
      have hl : rand k % (size + 1) < (list.take size).length := by
        rw [List.length_take]; omega
      have hg : list.getD (rand k % (size + 1)) 0
          = (list.take size).getD (rand k % (size + 1)) 0 := by
        rw [List.getD_eq_getElem?_getD, List.getD_eq_getElem?_getD, List.getElem?_take_of_lt hlt]
      rw [hg]
      exact (getD_cons_set_perm _ _ _ hl).trans (List.perm_append_singleton _ _).symm

/-- The shuffle returns an ordering of the list it is given, after one call of `rand()`
per vertex. -/
theorem generateRandomListOfVertices_perm (rand : Nat → Nat) (k : Nat)
    (v : list_of_vertices_t) :
    (generateRandomListOfVertices rand k v).1.list.Perm v.list ∧
      (generateRandomListOfVertices rand k v).2 = k + v.size := by
  obtain ⟨h1, h2⟩ := generateRandomListOfVertices_loop_perm rand v.size v.list [] k
    (le_refl _)
  unfold generateRandomListOfVertices
  refine ⟨?_, h2⟩
  simpa [list_of_vertices_t.size] using h1

/-! ## The generator -/

theorem indexOfElementInVertices_loop_spec (elem : Int) (l : List Int) (i : Int) :
    (elem ∈ l → indexOfElementInVertices.loop elem l i = i + (l.indexOf elem : Int)) ∧
      (elem ∉ l → indexOfElementInVertices.loop elem l i = -1) := by
  induction l generalizing i with
  | nil => simp [indexOfElementInVertices.loop]
  | cons x rest ih =>
    by_cases hx : elem = x
    · subst hx
      simp [indexOfElementInVertices.loop]
    · have hx1 : ¬ x = elem := fun e => hx e.symm
      obtain ⟨h1, h2⟩ := ih (i + 1)
      constructor
      · intro hm
        have hm1 : elem ∈ rest := by
          rcases List.mem_cons.mp hm with e | e
          · exact absurd e hx
          · exact e
        simp only [indexOfElementInVertices.loop, if_neg hx, h1 hm1,
          List.indexOf_cons_ne _ hx1]
        push_cast
        ring
      · intro hm
        have hm1 : elem ∉ rest := fun e => hm (List.mem_cons_of_mem _ e)
        simp only [indexOfElementInVertices.loop, if_neg hx, h2 hm1]

theorem indexOfElementInVertices_of_mem (v : list_of_vertices_t) (elem : Int)
    (h : elem ∈ v.list) : indexOfElementInVertices v elem = (v.list.indexOf elem : Int) := by
  unfold indexOfElementInVertices
  rw [(indexOfElementInVertices_loop_spec elem v.list 0).1 h]
  simp

theorem indexOfElementInVertices_eq_neg_one (v : list_of_vertices_t) (elem : Int) :
    indexOfElementInVertices v elem = -1 ↔ elem ∉ v.list := by
  constructor
  · intro h hm
    rw [indexOfElementInVertices_of_mem v elem hm] at h
    omega
  · intro h
    exact (indexOfElementInVertices_loop_spec elem v.list 0).2 h

theorem addElemToListOfVertices_some (v v1 : list_of_vertices_t) (elem : Int)
    (h : addElemToListOfVertices v elem = some v1) :
    (v.list.Nodup → v1.list.Nodup) ∧ (∀ x, x ∈ v1.list ↔ x ∈ v.list ∨ x = elem) ∧
      v1.size ≤ DEFAULT_EDGES_AMOUNT ∨ v1 = v ∧ elem ∈ v.list := by
  unfold addElemToListOfVertices at h
  split at h
  · rename_i hidx
    have hnot := (indexOfElementInVertices_eq_neg_one v elem).1 hidx
    split at h
    · rename_i hsz
      injection h with h; subst h
      left
      refine ⟨fun hnd => ?_, fun x => ?_, ?_⟩
      · exact List.Nodup.append hnd (List.nodup_singleton _) (by simpa using hnot)
      · simp
      · simp only [list_of_vertices_t.size, List.length_append, List.length_singleton] at hsz ⊢
        omega
    · cases h
  · rename_i hidx
    injection h with h; subst h
    right
    exact ⟨rfl, by
      by_contra hm
      exact hidx ((indexOfElementInVertices_eq_neg_one _ elem).2 hm)⟩

theorem addElemToListOfVertices_spec (v v1 : list_of_vertices_t) (elem : Int)
    (h : addElemToListOfVertices v elem = some v1) :
    (v.list.Nodup → v1.list.Nodup) ∧ (∀ x, x ∈ v1.list ↔ x ∈ v.list ∨ x = elem) := by
  rcases addElemToListOfVertices_some v v1 elem h with ⟨h1, h2, _⟩ | ⟨e, hm⟩
  · exact ⟨h1, h2⟩
  · subst e
    refine ⟨fun hnd => hnd, fun x => ⟨fun hx => Or.inl hx, fun hx => ?_⟩⟩
    rcases hx with hx | hx
    · exact hx
    · exact hx ▸ hm

theorem createListOfVertices_loop_spec (edges : List edge_t) :
    ∀ v v1 : list_of_vertices_t, createListOfVertices.loop edges v = some v1 →
      (v.list.Nodup → v1.list.Nodup) ∧
        ∀ x, x ∈ v1.list ↔ x ∈ v.list ∨ ∃ e ∈ edges, e.start = x ∨ e.end_ = x := by
  induction edges with
  | nil =>
    intro v v1 h
    simp only [createListOfVertices.loop, Option.some.injEq] at h
    subst h
    simp
  | cons e rest ih =>
    intro v v1 h
    simp only [createListOfVertices.loop] at h
    cases ha : addElemToListOfVertices v e.start with
    | none => rw [ha] at h; cases h
    | some va =>
      rw [ha] at h
      simp only [Option.some_bind] at h
      cases hb : addElemToListOfVertices va e.end_ with
      | none => rw [hb] at h; cases h
      | some vb =>
        rw [hb] at h
        simp only [Option.some_bind] at h
        obtain ⟨na, ma⟩ := addElemToListOfVertices_spec v va e.start ha
        obtain ⟨nb, mb⟩ := addElemToListOfVertices_spec va vb e.end_ hb
        obtain ⟨nr, mr⟩ := ih vb v1 h
        refine ⟨fun hnd => nr (nb (na hnd)), fun x => ?_⟩
        rw [mr x, mb x, ma x]
        constructor
        · rintro (((h1 | h1) | h1) | ⟨e1, he1, h1⟩)
          · exact Or.inl h1
          · exact Or.inr ⟨e, List.mem_cons_self _ _, Or.inl h1.symm⟩
          · exact Or.inr ⟨e, List.mem_cons_self _ _, Or.inr h1.symm⟩
          · exact Or.inr ⟨e1, List.mem_cons_of_mem _ he1, h1⟩
        · rintro (h1 | ⟨e1, he1, h1⟩)
          · exact Or.inl (Or.inl (Or.inl h1))
          · rcases List.mem_cons.mp he1 with e2 | e2
            · subst e2
              rcases h1 with h1 | h1
              · exact Or.inl (Or.inl (Or.inr h1.symm))
              · exact Or.inl (Or.inr h1.symm)
            · exact Or.inr ⟨e1, e2, h1⟩

/-- Where `createListOfVertices` runs without an out-of-bounds store, its list has no
value twice and holds exactly the endpoints of the edges. -/
theorem createListOfVertices_spec (list_of_edges : list_of_edges_t) (v : list_of_vertices_t)
    (h : createListOfVertices list_of_edges = some v) :
    v.list.Nodup ∧ ∀ x, x ∈ v.list ↔ ∃ e ∈ list_of_edges.list, e.start = x ∨ e.end_ = x := by
  obtain ⟨h1, h2⟩ := createListOfVertices_loop_spec list_of_edges.list ⟨[]⟩ v h
  refine ⟨h1 List.nodup_nil, fun x => ?_⟩
  rw [h2 x]
  simp

theorem generateSolution_loop_spec (v : list_of_vertices_t) (edges : List edge_t) :
    ∀ acc : list_of_edges_t, generateSolution.loop v edges acc =
      ⟨acc.list ++ edges.filter fun e =>
        indexOfElementInVertices v e.start > indexOfElementInVertices v e.end_⟩ := by
  induction edges with
  | nil => intro acc; simp [generateSolution.loop]
  | cons e rest ih =>
    intro acc
    by_cases hgt : indexOfElementInVertices v e.start > indexOfElementInVertices v e.end_
    · simp only [generateSolution.loop, if_pos hgt, ih]
      rw [List.filter_cons_of_pos (by simpa using hgt)]
      simp
    · simp only [generateSolution.loop, if_neg hgt, ih]
      rw [List.filter_cons_of_neg (by simpa using hgt)]

/-- On an ordering of the vertex list, the selection of `generateSolution` is the
filter by position in that ordering. -/
theorem generateSolution_select_spec (list_of_edges : list_of_edges_t)
    (vertices order : list_of_vertices_t)
    (hv : createListOfVertices list_of_edges = some vertices)
    (ho : order.list.Perm vertices.list) :
    generateSolution.select order list_of_edges =
      ⟨list_of_edges.list.filter fun e =>
        order.list.indexOf e.end_ < order.list.indexOf e.start⟩ := by
  have hmem : ∀ e ∈ list_of_edges.list, e.start ∈ order.list ∧ e.end_ ∈ order.list := by
    intro e he
    obtain ⟨_, hm⟩ := createListOfVertices_spec list_of_edges vertices hv
    exact ⟨ho.mem_iff.2 ((hm _).2 ⟨e, he, Or.inl rfl⟩),
      ho.mem_iff.2 ((hm _).2 ⟨e, he, Or.inr rfl⟩)⟩
  unfold generateSolution.select
  rw [generateSolution_loop_spec]
  simp only [List.nil_append, list_of_edges_t.mk.injEq]
  apply List.filter_congr
  intro e he
  obtain ⟨h1, h2⟩ := hmem e he
  rw [indexOfElementInVertices_of_mem order _ h1, indexOfElementInVertices_of_mem order _ h2]
  simp

/-- Without self-loops, what `generateSolution` selects on an ordering of the vertex
list is a feedback arc set: the edges it leaves have no cycle. -/
theorem generateSolution_select_acyclic (list_of_edges : list_of_edges_t)
    (vertices order : list_of_vertices_t)
    (hv : createListOfVertices list_of_edges = some vertices)
    (ho : order.list.Perm vertices.list)
    (hloop : ∀ e ∈ list_of_edges.list, e.start ≠ e.end_) :
    acyclic (remaining_edges list_of_edges (generateSolution.select order list_of_edges)) := by
  have hstep : ∀ u v, has_edge (remaining_edges list_of_edges
      (generateSolution.select order list_of_edges)) u v →
      order.list.indexOf u < order.list.indexOf v := by
    intro u v huv
    unfold has_edge remaining_edges at huv
    rw [generateSolution_select_spec list_of_edges vertices order hv ho] at huv
    simp only [List.mem_filter, decide_eq_true_eq, not_and, not_lt] at huv
    obtain ⟨hin, hle⟩ := huv
    have hle1 := hle hin
    obtain ⟨_, hm⟩ := createListOfVertices_spec list_of_edges vertices hv
    have hu : u ∈ order.list := ho.mem_iff.2 ((hm _).2 ⟨_, hin, Or.inl rfl⟩)
    have hv1 : v ∈ order.list := ho.mem_iff.2 ((hm _).2 ⟨_, hin, Or.inr rfl⟩)
    have hne : u ≠ v := hloop _ hin
    have hidx : order.list.indexOf u ≠ order.list.indexOf v :=
      fun e => hne ((List.indexOf_inj hu hv1).1 e)
    omega
  have htrans : ∀ u v, Relation.TransGen (has_edge (remaining_edges list_of_edges
      (generateSolution.select order list_of_edges))) u v →
      order.list.indexOf u < order.list.indexOf v := by
    intro u v h
    induction h with
    | single h1 => exact hstep _ _ h1
    | tail _ h1 ih => exact lt_trans ih (hstep _ _ h1)
  intro v hcycle
  exact lt_irrefl _ (htrans v v hcycle)

/-- C5. For an edge list and any ordering `order` of its vertex list, `generateSolution`
run on that order returns exactly the edges whose start vertex has a strictly larger
index in `order` than their end vertex, in their original relative order, and its size
is the number of those edges.  Whatever `rand()` yields, the order that
`generateSolution` shuffles the vertex list into is such an ordering, and the Solution
it returns is the one for that order. -/
theorem generateSolution_select_backward_edges (list_of_edges : list_of_edges_t)
    (vertices order : list_of_vertices_t)
    (hv : createListOfVertices list_of_edges = some vertices)
    (ho : order.list.Perm vertices.list) :
    generateSolution.select order list_of_edges =
        ⟨list_of_edges.list.filter fun e =>
          order.list.indexOf e.end_ < order.list.indexOf e.start⟩ ∧
      (generateSolution.select order list_of_edges).size =
        (list_of_edges.list.filter fun e =>
          order.list.indexOf e.end_ < order.list.indexOf e.start).length ∧
      ∀ (rand : Nat → Nat) (k : Nat),
        (generateSolution rand k order list_of_edges).1.list.Perm vertices.list ∧
        (generateSolution rand k order list_of_edges).2.1 =
          ⟨list_of_edges.list.filter fun e =>
            (generateSolution rand k order list_of_edges).1.list.indexOf e.end_
              < (generateSolution rand k order list_of_edges).1.list.indexOf e.start⟩ := by
  have key := generateSolution_select_spec list_of_edges vertices order hv ho
  refine ⟨key, by rw [key]; rfl, fun rand k => ?_⟩
  have hp : (generateRandomListOfVertices rand k order).1.list.Perm vertices.list :=
    (generateRandomListOfVertices_perm rand k order).1.trans ho
  exact ⟨hp, generateSolution_select_spec list_of_edges vertices _ hv hp⟩

/-- C5 at the edges `0-1 1-2` and the vertex order `(0, 1, 2)`: the Solution has
size 0. -/
theorem generateSolution_select_backward_edges_witness :
    createListOfVertices ⟨[⟨0, 1⟩, ⟨1, 2⟩]⟩ = some ⟨[0, 1, 2]⟩ ∧
      (generateSolution.select ⟨[0, 1, 2]⟩ ⟨[⟨0, 1⟩, ⟨1, 2⟩]⟩ =
          ⟨[⟨0, 1⟩, ⟨1, 2⟩].filter fun e =>
            [0, 1, 2].indexOf e.end_ < [0, 1, 2].indexOf e.start⟩ ∧
        (generateSolution.select ⟨[0, 1, 2]⟩ ⟨[⟨0, 1⟩, ⟨1, 2⟩]⟩).size =
          ([⟨0, 1⟩, ⟨1, 2⟩].filter fun e : edge_t =>
            [0, 1, 2].indexOf e.end_ < [0, 1, 2].indexOf e.start).length ∧
        ∀ (rand : Nat → Nat) (k : Nat),
          (generateSolution rand k ⟨[0, 1, 2]⟩ ⟨[⟨0, 1⟩, ⟨1, 2⟩]⟩).1.list.Perm [0, 1, 2] ∧
          (generateSolution rand k ⟨[0, 1, 2]⟩ ⟨[⟨0, 1⟩, ⟨1, 2⟩]⟩).2.1 =
            ⟨[⟨0, 1⟩, ⟨1, 2⟩].filter fun e =>
              (generateSolution rand k ⟨[0, 1, 2]⟩ ⟨[⟨0, 1⟩, ⟨1, 2⟩]⟩).1.list.indexOf e.end_
                < (generateSolution rand k ⟨[0, 1, 2]⟩ ⟨[⟨0, 1⟩, ⟨1, 2⟩]⟩).1.list.indexOf
                    e.start⟩) ∧
      (generateSolution.select ⟨[0, 1, 2]⟩ ⟨[⟨0, 1⟩, ⟨1, 2⟩]⟩).size = 0 :=
  ⟨by decide,
    generateSolution_select_backward_edges ⟨[⟨0, 1⟩, ⟨1, 2⟩]⟩ ⟨[0, 1, 2]⟩ ⟨[0, 1, 2]⟩
      (by decide) (List.Perm.refl _),
    by decide⟩

/-! ## The capacity of the vertex list -/

theorem addElemToListOfVertices_eq_none (v : list_of_vertices_t) (elem : Int) :
    addElemToListOfVertices v elem = none ↔
      elem ∉ v.list ∧ DEFAULT_EDGES_AMOUNT ≤ v.size := by
  unfold addElemToListOfVertices
  by_cases hidx : indexOfElementInVertices v elem = -1
  · have hnot := (indexOfElementInVertices_eq_neg_one v elem).1 hidx
    rw [if_pos hidx]
    by_cases hsz : v.size < DEFAULT_EDGES_AMOUNT
    · rw [if_pos hsz]
      simp only [reduceCtorEq, false_iff, not_and, not_le]
      exact fun _ => hsz
    · rw [if_neg hsz]
      simp only [true_iff]
      exact ⟨hnot, not_lt.mp hsz⟩
  · rw [if_neg hidx]
    simp only [reduceCtorEq, false_iff, not_and, not_le]
    intro hnot
    exact absurd ((indexOfElementInVertices_eq_neg_one v elem).2 hnot) hidx

theorem addElemToListOfVertices_toFinset (v v1 : list_of_vertices_t) (elem : Int)
    (h : addElemToListOfVertices v elem = some v1) :
    v1.list.toFinset = insert elem v.list.toFinset ∧
      (v.size ≤ DEFAULT_EDGES_AMOUNT → v1.size ≤ DEFAULT_EDGES_AMOUNT) := by
  constructor
  · ext x
    rw [List.mem_toFinset, (addElemToListOfVertices_spec v v1 elem h).2 x, Finset.mem_insert,
      List.mem_toFinset]
    exact or_comm
  · intro hsz
    rcases addElemToListOfVertices_some v v1 elem h with ⟨_, _, h3⟩ | ⟨e, _⟩
    · exact h3
    · rw [e]; exact hsz

theorem endpoints_mem (edges : List edge_t) (x : Int) :
    x ∈ endpoints edges ↔ ∃ e ∈ edges, e.start = x ∨ e.end_ = x := by
  induction edges with
  | nil => simp [endpoints]
  | cons e rest ih =>
    simp only [endpoints, List.mem_cons, ih, exists_eq_or_imp]
    constructor
    · rintro (h | h | h)
      · exact Or.inl (Or.inl h.symm)
      · exact Or.inl (Or.inr h.symm)
      · exact Or.inr h
    · rintro ((h | h) | h)
      · exact Or.inl h.symm
      · exact Or.inr (Or.inl h.symm)
      · exact Or.inr (Or.inr h)

theorem createListOfVertices_loop_isSome (edges : List edge_t) :
    ∀ v : list_of_vertices_t, v.list.Nodup → v.size ≤ DEFAULT_EDGES_AMOUNT →
      ((createListOfVertices.loop edges v).isSome ↔
        (v.list.toFinset ∪ (endpoints edges).toFinset).card ≤ DEFAULT_EDGES_AMOUNT) := by
  induction edges with
  | nil =>
    intro v hnd hsz
    simp only [createListOfVertices.loop, Option.isSome_some, endpoints, List.toFinset_nil,
      Finset.union_empty, true_iff]
    rw [List.toFinset_card_of_nodup hnd]
    exact hsz
  | cons e rest ih =>
    intro v hnd hsz
    simp only [createListOfVertices.loop, endpoints, List.toFinset_cons]
    cases ha : addElemToListOfVertices v e.start with
    | none =>
      obtain ⟨hnot, hfull⟩ := (addElemToListOfVertices_eq_none v e.start).1 ha
      simp only [Option.none_bind, Option.isSome_none, Bool.false_eq_true, false_iff, not_le]
      have hsub : insert e.start v.list.toFinset ⊆
          v.list.toFinset ∪ insert e.start (insert e.end_ (endpoints rest).toFinset) := by
        intro x hx
        rcases Finset.mem_insert.1 hx with h | h
        · exact Finset.mem_union_right _ (Finset.mem_insert.2 (Or.inl h))
        · exact Finset.mem_union_left _ h
      have hcard : (insert e.start v.list.toFinset).card = v.list.length + 1 := by
        rw [Finset.card_insert_of_not_mem (by simpa using hnot),
          List.toFinset_card_of_nodup hnd]
      have := Finset.card_le_card hsub
      simp only [list_of_vertices_t.size] at hfull
      omega
    | some va =>
      obtain ⟨fa, sa⟩ := addElemToListOfVertices_toFinset v va e.start ha
      have nda := (addElemToListOfVertices_spec v va e.start ha).1 hnd
      simp only [Option.some_bind]
      cases hb : addElemToListOfVertices va e.end_ with
      | none =>
        obtain ⟨hnot, hfull⟩ := (addElemToListOfVertices_eq_none va e.end_).1 hb
        simp only [Option.none_bind, Option.isSome_none, Bool.false_eq_true, false_iff, not_le]
        have hsub : insert e.end_ va.list.toFinset ⊆
            v.list.toFinset ∪ insert e.start (insert e.end_ (endpoints rest).toFinset) := by
          intro x hx
          rw [fa] at hx
          simp only [Finset.mem_insert, Finset.mem_union, List.mem_toFinset] at hx ⊢
          tauto
        have hcard : (insert e.end_ va.list.toFinset).card = va.list.length + 1 := by
          rw [Finset.card_insert_of_not_mem (by simpa using hnot),
            List.toFinset_card_of_nodup nda]
        have := Finset.card_le_card hsub
        simp only [list_of_vertices_t.size] at hfull
        omega
      | some vb =>
        obtain ⟨fb, sb⟩ := addElemToListOfVertices_toFinset va vb e.end_ hb
        have ndb := (addElemToListOfVertices_spec va vb e.end_ hb).1 nda
        simp only [Option.some_bind]
        rw [ih vb ndb (sb (sa hsz))]
        have heq : vb.list.toFinset ∪ (endpoints rest).toFinset =
            v.list.toFinset ∪ insert e.start (insert e.end_ (endpoints rest).toFinset) := by
          ext x
          rw [fb, fa]
          simp only [Finset.mem_insert, Finset.mem_union, List.mem_toFinset]
          tauto
        rw [heq]

/-- The function `createListOfVertices` runs without an out-of-bounds store exactly when
the edges have at most `DEFAULT_EDGES_AMOUNT` distinct endpoints. -/
theorem createListOfVertices_isSome_iff (list_of_edges : list_of_edges_t) :
    (createListOfVertices list_of_edges).isSome ↔
      (endpoints list_of_edges.list).toFinset.card ≤ DEFAULT_EDGES_AMOUNT := by
  unfold createListOfVertices
  rw [createListOfVertices_loop_isSome list_of_edges.list ⟨[]⟩ List.nodup_nil (by decide)]
  simp

/-- C6 at the failing input `1-1`. The edge list is accepted, its vertex list is `(1)`,
and whatever the shuffle draws the Solution is empty; the edge `1-1` stays in the
graph, which has the cycle `1 -> 1`, and the supervisor that reads this Solution prints
that the graph is acyclic. -/
theorem generateSolution_keeps_self_loop :
    createListOfVertices ⟨[⟨1, 1⟩]⟩ = some ⟨[1]⟩ ∧
      (∀ rand k, (generateSolution rand k ⟨[1]⟩ ⟨[⟨1, 1⟩]⟩).2.1 = ⟨[]⟩) ∧
      ¬ acyclic (remaining_edges ⟨[⟨1, 1⟩]⟩ ⟨[]⟩) ∧
      (readSolution ⟨List.replicate 12 ⟨[]⟩, 0, 1, false⟩
          (supervisor_globals.initial INT_MAX)).2.stdout
        = [stdout_line.graph_is_acyclic] := by
  refine ⟨by decide, ?_, ?_, by decide⟩
  · intro rand k
    simp [generateSolution, generateRandomListOfVertices, generateRandomListOfVertices.loop,
      generateRandomNumber, list_of_vertices_t.size, generateSolution.select,
      generateSolution.loop, indexOfElementInVertices, indexOfElementInVertices.loop]
  · intro h
    exact h 1 (Relation.TransGen.single (by unfold has_edge; decide))

theorem perm_three_cases (l : List Int) (h : l.Perm [0, 1, 2]) :
    l = [0, 1, 2] ∨ l = [0, 2, 1] ∨ l = [1, 0, 2] ∨ l = [1, 2, 0] ∨ l = [2, 0, 1]
      ∨ l = [2, 1, 0] := by
  have hlen := h.length_eq
  have hnd : l.Nodup := h.nodup_iff.2 (by decide)
  match l, hlen, h, hnd with
  | [a, b, c], _, h, hnd =>
    have ha : a ∈ [(0 : Int), 1, 2] := h.mem_iff.1 (by simp)
    have hb : b ∈ [(0 : Int), 1, 2] := h.mem_iff.1 (by simp)
    have hc : c ∈ [(0 : Int), 1, 2] := h.mem_iff.1 (by simp)
    simp only [List.mem_cons, List.mem_singleton, List.not_mem_nil, or_false] at ha hb hc
    rcases ha with rfl | rfl | rfl <;> rcases hb with rfl | rfl | rfl <;>
      rcases hc with rfl | rfl | rfl <;> first
        | (exfalso; revert hnd; decide)
        | simp

/-- C7. For the edge list `0-1 1-2 2-0` and each of the six orderings of its vertices,
`generateSolution` returns a Solution of size at least 1, and a supervisor that reads
it with its limit not exhausted neither prints that the graph is acyclic nor sets
`quit`, and records `min best_solution size`.  For the ordering `(0, 1, 2)` the size is
exactly 1, so 1 is the least value `best_solution` can take. -/
theorem three_cycle_best_is_one (order : list_of_vertices_t)
    (ho : order.list.Perm [0, 1, 2]) :
    createListOfVertices three_cycle = some ⟨[0, 1, 2]⟩ ∧
      1 ≤ (generateSolution.select order three_cycle).size ∧
      (∀ (myshm : myshm_t) (g : supervisor_globals), g.supervisor.limit ≠ 0 →
        myshm.buffer.getD myshm.read_index ⟨[]⟩ = generateSolution.select order three_cycle →
        (readSolution myshm g).2.stdout = g.stdout ∧ (readSolution myshm g).2.quit = g.quit ∧
        (readSolution myshm g).2.best_solution
          = min g.best_solution (generateSolution.select order three_cycle).size) ∧
      (generateSolution.select ⟨[0, 1, 2]⟩ three_cycle).size = 1 := by
  have hsize : 1 ≤ (generateSolution.select order three_cycle).size := by
    obtain ⟨l⟩ := order
    rcases perm_three_cases l ho with h | h | h | h | h | h <;> (subst h; decide)
  refine ⟨by decide, hsize, ?_, by decide⟩
  intro myshm g hl hslot
  have hz : (myshm.buffer.getD myshm.read_index ⟨[]⟩).size ≠ 0 := by
    rw [hslot]; omega
  rw [(readSolution_nonempty myshm g hl hz).1, hslot]
  refine ⟨rfl, rfl, ?_⟩
  dsimp only
  split
  · rw [min_eq_right (le_of_lt (by assumption))]
  · rw [min_eq_left (not_lt.mp (by assumption))]

/-- C7 at the ordering `(1, 2, 0)`. -/
theorem three_cycle_best_is_one_witness :
    (([1, 2, 0] : List Int).Perm [0, 1, 2]) ∧
      (createListOfVertices three_cycle = some ⟨[0, 1, 2]⟩ ∧
      1 ≤ (generateSolution.select ⟨[1, 2, 0]⟩ three_cycle).size ∧
      (∀ (myshm : myshm_t) (g : supervisor_globals), g.supervisor.limit ≠ 0 →
        myshm.buffer.getD myshm.read_index ⟨[]⟩
          = generateSolution.select ⟨[1, 2, 0]⟩ three_cycle →
        (readSolution myshm g).2.stdout = g.stdout ∧ (readSolution myshm g).2.quit = g.quit ∧
        (readSolution myshm g).2.best_solution
          = min g.best_solution (generateSolution.select ⟨[1, 2, 0]⟩ three_cycle).size) ∧
      (generateSolution.select ⟨[0, 1, 2]⟩ three_cycle).size = 1) :=
  ⟨by decide, three_cycle_best_is_one ⟨[1, 2, 0]⟩ (by decide)⟩

/-- C8 at the failing input `0-1 2-3 ... 40-41`. The 21 edges are within the limit of
40, and they have 42 distinct endpoints: the 41st is stored at `list[40]`, past the end
of the array of `DEFAULT_EDGES_AMOUNT` cells.  With 20 such edges the list is
`0, 1, ..., 39`. -/
theorem createListOfVertices_out_of_bounds :
    (disjoint_edges 21).size = 21 ∧ createListOfVertices (disjoint_edges 21) = none ∧
      createListOfVertices (disjoint_edges 20)
        = some ⟨(List.range 40).map fun i => (i : Int)⟩ := by
  decide

/-! ## The supervisor at limit 0 and at an interrupted wait -/

/-- C9, as the code has it. A supervisor started with limit 0 first waits on
`used_count`: while `used_count` is 0 it is blocked in `sem_wait`, and once a token is
there it takes it and does not give it back.  Its `readSolution` then reads no slot and
leaves `read_index`, the buffer and `free_count` as they are, prints the report with the
initial best value `INT_MAX` and sets `quit`; the supervisor leaves its loop, sets
`stop`, cleans up and exits with success. -/
theorem System.supervisor_limit_zero (s : System) (hpc : s.sup_at = sup_pc.loop_test)
    (hsup : s.sup = supervisor_globals.initial 0) :
    (s.used_count = 0 →
      s.run [SystemAction.sup] = some { s with sup_at := sup_pc.sem_wait } ∧
      s.run [SystemAction.sup, SystemAction.sup] = none) ∧
    (0 < s.used_count →
      s.run (List.replicate 6 SystemAction.sup) = some { s with
        used_count := s.used_count - 1
        sup := { s.sup with
          quit := true
          stdout := [stdout_line.best_solution_removes INT_MAX] }
        myshm := { s.myshm with stop := true }
        abandoned := s.abandoned + 1
        sup_calls := s.sup_calls ++ supervisor_cleanup
        sup_at := sup_pc.exited EXIT_SUCCESS }) := by
  obtain ⟨myshm, free_count, used_count, sup, sup_at, gens, abandoned, sup_calls, gen_calls,
    stderr⟩ := s
  dsimp only at hpc hsup
  subst hpc hsup
  constructor
  · intro h0
    dsimp only at h0
    subst h0
    simp [System.run, System.step, System.sup_step, supervisor_globals.initial]
  · intro hpos
    dsimp only at hpos
    simp [System.run, System.step, System.sup_step, supervisor_globals.initial, readSolution,
      hpos]

/-- C9, as the code has it, at a system in which one Solution is available. -/
theorem System.supervisor_limit_zero_witness :
    (System.limit_zero_demo.sup_at = sup_pc.loop_test ∧
      System.limit_zero_demo.sup = supervisor_globals.initial 0) ∧
    ((System.limit_zero_demo.used_count = 0 →
      System.limit_zero_demo.run [SystemAction.sup]
        = some { System.limit_zero_demo with sup_at := sup_pc.sem_wait } ∧
      System.limit_zero_demo.run [SystemAction.sup, SystemAction.sup] = none) ∧
    (0 < System.limit_zero_demo.used_count →
      System.limit_zero_demo.run (List.replicate 6 SystemAction.sup)
        = some { System.limit_zero_demo with
          used_count := System.limit_zero_demo.used_count - 1
          sup := { System.limit_zero_demo.sup with
            quit := true
            stdout := [stdout_line.best_solution_removes INT_MAX] }
          myshm := { System.limit_zero_demo.myshm with stop := true }
          abandoned := System.limit_zero_demo.abandoned + 1
          sup_calls := System.limit_zero_demo.sup_calls ++ supervisor_cleanup
          sup_at := sup_pc.exited EXIT_SUCCESS })) :=
  ⟨⟨rfl, rfl⟩, System.supervisor_limit_zero System.limit_zero_demo rfl rfl⟩

/-- C9 as stated fails. Started with limit 0 and no Solution published, the supervisor
goes to `sem_wait(used_sem)` and is blocked there with `quit` unset: it does not
terminate.  With one Solution published, it ends with `used_count` 0 where it was 1. -/
theorem System.supervisor_limit_zero_waits :
    ((System.initial 0 (List.replicate 12 ⟨[]⟩) 0).run [SystemAction.sup]).map
        (fun s => (s.sup_at, s.used_count, s.sup.quit, (s.step SystemAction.sup).isNone))
      = some (sup_pc.sem_wait, 0, false, true) ∧
    ((System.initial 0 (List.replicate 12 ⟨[]⟩) 1).run
        (List.replicate 6 (SystemAction.gen 0 ⟨[⟨2, 0⟩]⟩))).map
        (fun s => (s.sup_at, s.used_count))
      = some (sup_pc.loop_test, 1) ∧
    ((System.initial 0 (List.replicate 12 ⟨[]⟩) 1).run System.limit_zero_actions).map
        (fun s => (s.sup_at, s.used_count, s.free_count, s.myshm.read_index, s.sup.stdout))
      = some (sup_pc.exited EXIT_SUCCESS, 0, 11, 0,
          [stdout_line.best_solution_removes INT_MAX]) := by
  decide

/-- C10 at the failing input. The supervisor, with no Solution published, is blocked in
`sem_wait(used_sem)` when a signal arrives: it sets `stop`, prints the error line and
exits with `EXIT_FAILURE`, having closed and unlinked nothing.  When the signal arrives
before the loop test instead, the supervisor leaves the loop, runs the whole cleanup and
exits with `EXIT_SUCCESS`. -/
theorem System.supervisor_eintr_skips_cleanup :
    ((System.initial INT_MAX (List.replicate 12 ⟨[]⟩) 0).run
        [SystemAction.sup, SystemAction.sup_eintr]).map
        (fun s => (s.myshm.stop, s.sup_at, s.sup_calls, s.stderr,
          (s.step SystemAction.sup).isNone))
      = some (true, sup_pc.exited EXIT_FAILURE, [], [stderr_line.interrupted_by_a_signal],
          true) ∧
    ((System.initial INT_MAX (List.replicate 12 ⟨[]⟩) 0).run
        [SystemAction.signal, SystemAction.sup, SystemAction.sup, SystemAction.sup]).map
        (fun s => (s.myshm.stop, s.sup_at, s.sup_calls))
      = some (true, sup_pc.exited EXIT_SUCCESS, supervisor_cleanup) := by
  decide

/-! ## What a generator does to the named resources -/

theorem System.calls_of_gen_step (s s1 : System) (j : Nat) (solution : list_of_edges_t)
    (h : s.gen_step j solution = some s1) (i : Nat)
    (hi : s.calls_of i = if s.gens.get? i = some gen_pc.exited then generator_cleanup else []) :
    s1.calls_of i = if s1.gens.get? i = some gen_pc.exited then generator_cleanup else [] := by
  have hset : ∀ pc : gen_pc, i ≠ j → (s.gens.set j pc).get? i = s.gens.get? i := by
    intro pc hne
    simp only [List.get?_eq_getElem?]
    exact List.getElem?_set_ne (fun e => hne e.symm)
  have hsame : ∀ pc : gen_pc, pc ≠ gen_pc.exited → s.gens.get? j ≠ some gen_pc.exited →
      (if (s.gens.set j pc).get? i = some gen_pc.exited then generator_cleanup else [])
        = if s.gens.get? i = some gen_pc.exited then generator_cleanup else [] := by
    intro pc hpc hj
    by_cases hij : i = j
    · subst hij
      have h1 : (s.gens.set i pc).get? i ≠ some gen_pc.exited := by
        simp only [List.get?_eq_getElem?, List.getElem?_set_self']
        intro e
        cases hlt : s.gens[i]? with
        | none => rw [hlt] at e; cases e
        | some x =>
          rw [hlt] at e
          simp at e
          exact hpc e
      rw [if_neg h1, if_neg hj]
    · rw [hset pc hij]
  unfold System.gen_step at h
  split at h
  · cases h
  · rename_i hpc
    have hj : s.gens.get? j ≠ some gen_pc.exited := by rw [hpc]; simp
    split at h <;>
      (injection h with h; subst h; unfold System.calls_of at hi ⊢; dsimp only
       rw [hi, hsame _ (by simp) hj])
  · rename_i hpc
    have hj : s.gens.get? j ≠ some gen_pc.exited := by rw [hpc]; simp
    split at h
    · injection h with h; subst h; unfold System.calls_of at hi ⊢; dsimp only
      rw [hi, hsame _ (by simp) hj]
    · cases h
  · rename_i hpc
    have hj : s.gens.get? j ≠ some gen_pc.exited := by rw [hpc]; simp
    split at h <;>
      (injection h with h; subst h; unfold System.calls_of at hi ⊢; dsimp only
       rw [hi, hsame _ (by simp) hj])
  · rename_i hpc
    have hj : s.gens.get? j ≠ some gen_pc.exited := by rw [hpc]; simp
    injection h with h; subst h; unfold System.calls_of at hi ⊢; dsimp only
    rw [hi, hsame _ (by simp) hj]
  · rename_i hpc
    have hj : s.gens.get? j ≠ some gen_pc.exited := by rw [hpc]; simp
    injection h with h; subst h; unfold System.calls_of at hi ⊢; dsimp only
    rw [hi, hsame _ (by simp) hj]
  · rename_i hpc
    have hj : s.gens.get? j ≠ some gen_pc.exited := by rw [hpc]; simp
    injection h with h; subst h; unfold System.calls_of at hi ⊢; dsimp only
    rw [hi, hsame _ (by simp) hj]
  · rename_i hpc
    injection h with h; subst h; unfold System.calls_of at hi ⊢; dsimp only
    rw [List.filter_append, List.map_append, hi]
    by_cases hij : i = j
    · subst hij
      have hlt : i < s.gens.length := by
        by_contra hge
        have : s.gens.get? i = none := by
          simp only [List.get?_eq_getElem?]
          exact List.getElem?_eq_none (not_lt.mp hge)
        rw [this] at hpc; cases hpc
      have h1 : (s.gens.set i gen_pc.exited).get? i = some gen_pc.exited := by
        simp only [List.get?_eq_getElem?]
        exact List.getElem?_set_self hlt
      rw [h1, hpc]
      simp [generator_cleanup]
    · rw [hset _ hij]
      have hnone : List.filter (fun p : Nat × syscall => decide (p.1 = i))
          (List.map (fun c => (j, c)) generator_cleanup) = [] := by
        simp only [List.filter_eq_nil_iff, List.mem_map, decide_eq_true_eq]
        rintro ⟨a, b⟩ ⟨c, _, hc⟩
        simp only [Prod.mk.injEq] at hc
        exact fun e => hij (e.symm.trans hc.1.symm)
      rw [hnone]
      simp
  · cases h

theorem System.calls_of_step (s s1 : System) (a : SystemAction) (h : s.step a = some s1)
    (i : Nat)
    (hi : s.calls_of i = if s.gens.get? i = some gen_pc.exited then generator_cleanup else []) :
    s1.calls_of i = if s1.gens.get? i = some gen_pc.exited then generator_cleanup else [] := by
  cases a with
  | gen j solution => exact System.calls_of_gen_step s s1 j solution h i hi
  | sup =>
    simp only [System.step, System.sup_step] at h
    split at h
    all_goals first
      | cases h; done
      | (injection h with h; subst h; exact hi)
      | (split at h
         all_goals first
           | cases h; done
           | (injection h with h; subst h; exact hi))
  | sup_eintr =>
    simp only [System.step, System.sup_eintr] at h
    split at h
    · injection h with h; subst h; exact hi
    · cases h
  | signal =>
    simp only [System.step, System.signal] at h
    split at h
    · cases h
    · injection h with h; subst h; exact hi

theorem System.calls_of_initial (limit : Int) (buffer : List list_of_edges_t) (n i : Nat) :
    (System.initial limit buffer n).calls_of i =
      if (System.initial limit buffer n).gens.get? i = some gen_pc.exited
      then generator_cleanup else [] := by
  have h1 : (System.initial limit buffer n).gens.get? i ≠ some gen_pc.exited := by
    simp only [System.initial, List.get?_eq_getElem?]
    intro e
    obtain ⟨hlt, he⟩ := List.getElem?_eq_some_iff.1 e
    simp at he
  rw [if_neg h1]
  rfl

/-- C11, as the code has it. In every run, the library calls a generator has made are
none until it has exited and, once it has exited after observing `stop`, the calls of
lines 314-325: it closes its two semaphore handles, calls `sem_unlink` on `/free_sem`
and on `/used_sem`, unmaps and closes its mapping.  On no path through the exit code
does it call `shm_unlink`, so the shared-memory object stays; on every path on which
both `sem_close` calls succeed, the two named semaphores are gone afterwards. -/
theorem System.generator_unlinks_semaphores (limit : Int) (buffer : List list_of_edges_t)
    (n : Nat) (actions : List SystemAction) (s : System)
    (h : (System.initial limit buffer n).run actions = some s) (i : Nat) :
    (s.calls_of i = if s.gens.get? i = some gen_pc.exited then generator_cleanup else []) ∧
      generator_cleanup = (generator_exit ⟨true, true, true, true⟩).1 ∧
      (∀ ok name, syscall.shm_unlink name ∉ (generator_exit ok).1) ∧
      (∀ ok, named_resource.shm "/myshm"
        ∈ names_after (generator_exit ok).1 all_named_resources) ∧
      (∀ ok, ok.sem_close_free_ok = true → ok.sem_close_used_ok = true →
        names_after (generator_exit ok).1 all_named_resources
          = [named_resource.shm "/myshm"]) := by
  refine ⟨?_, rfl, ?_, ?_, ?_⟩
  · exact System.run_preserves
      (fun t => t.calls_of i
        = if t.gens.get? i = some gen_pc.exited then generator_cleanup else [])
      (fun t t1 a ht hs => System.calls_of_step t t1 a hs i ht) actions _ s
      (System.calls_of_initial limit buffer n i) h
  · rintro ⟨a, b, c, d⟩ name hmem
    cases a <;> cases b <;> cases c <;> cases d <;> simp [generator_exit] at hmem
  · rintro ⟨a, b, c, d⟩
    cases a <;> cases b <;> cases c <;> cases d <;> decide
  · rintro ⟨a, b, c, d⟩ ha hb
    dsimp only at ha hb
    subst ha hb
    cases c <;> cases d <;> decide

/-- C11, as the code has it, at the run in which the generator exits before the
supervisor cleans up. -/
theorem System.generator_unlinks_semaphores_witness :
    (System.initial INT_MAX (List.replicate 12 ⟨[]⟩) 1).run System.generator_exit_actions
        = some System.generator_exit_demo ∧
      ((System.generator_exit_demo.calls_of 0 =
          if System.generator_exit_demo.gens.get? 0 = some gen_pc.exited
          then generator_cleanup else []) ∧
        generator_cleanup = (generator_exit ⟨true, true, true, true⟩).1 ∧
        (∀ ok name, syscall.shm_unlink name ∉ (generator_exit ok).1) ∧
        (∀ ok, named_resource.shm "/myshm"
          ∈ names_after (generator_exit ok).1 all_named_resources) ∧
        (∀ ok, ok.sem_close_free_ok = true → ok.sem_close_used_ok = true →
          names_after (generator_exit ok).1 all_named_resources
            = [named_resource.shm "/myshm"])) :=
  ⟨by decide, System.generator_unlinks_semaphores INT_MAX (List.replicate 12 ⟨[]⟩) 1
    System.generator_exit_actions System.generator_exit_demo (by decide) 0⟩

/-- C11 as stated fails. The supervisor has set `stop` and has not yet cleaned up; the
generator leaves its loop and exits normally.  Its calls include `sem_unlink` on both
semaphores, and of the three named objects that existed before only the shared-memory
object exists after. -/
theorem System.generator_removes_named_semaphores :
    ((System.initial INT_MAX (List.replicate 12 ⟨[]⟩) 1).run
        System.generator_exit_actions).map
        (fun s => (s.gens, s.sup_calls, s.calls_of 0,
          names_after (s.calls_of 0) all_named_resources))
      = some ([gen_pc.exited], [],
          [syscall.sem_close_free, syscall.sem_close_used, syscall.sem_unlink "/free_sem",
           syscall.sem_unlink "/used_sem", syscall.munmap, syscall.close],
          [named_resource.shm "/myshm"]) := by
  decide

/-! ## The arguments of the supervisor and of the generator -/

theorem isspace_of_isDigit (c : Char) (h : c.isDigit = true) : isspace c = false := by
  unfold isspace
  simp only [Bool.or_eq_false_iff, decide_eq_false_iff_not]
  refine ⟨⟨⟨⟨⟨?_, ?_⟩, ?_⟩, ?_⟩, ?_⟩, ?_⟩ <;> (rintro rfl; revert h; decide)

theorem strtol_digits_spec (ds rest : List Char) (hd : ∀ c ∈ ds, c.isDigit = true)
    (hrest : rest.head?.map Char.isDigit ≠ some true) :
    ∀ acc, strtol.digits (ds ++ rest) acc
      = (ds.foldl (fun acc c => 10 * acc + (c.toNat - '0'.toNat)) acc, rest) := by
  induction ds with
  | nil =>
    intro acc
    cases rest with
    | nil => rfl
    | cons c rest =>
      have hc : c.isDigit = false := by
        cases hcd : c.isDigit with
        | false => rfl
        | true => exact absurd (by simp [hcd]) hrest
      simp [strtol.digits, hc]
  | cons d ds ih =>
    intro acc
    have hdd : d.isDigit = true := hd d (List.mem_cons_self _ _)
    simp only [List.cons_append, strtol.digits, hdd, if_true, List.foldl_cons]
    exact ih (fun c hc => hd c (List.mem_cons_of_mem _ hc)) _

theorem strtol_signed_decimal (negative : Bool) (ds rest : List Char) (hne : ds ≠ [])
    (hd : ∀ c ∈ ds, c.isDigit = true)
    (hrest : rest.head?.map Char.isDigit ≠ some true) :
    strtol (signed_decimal negative ds ++ rest)
      = (max LONG_MIN (min LONG_MAX (signed_value negative ds)), rest) := by
  obtain ⟨d, ds1, rfl⟩ := List.exists_cons_of_ne_nil hne
  have hdd : d.isDigit = true := hd d (List.mem_cons_self _ _)
  have hsp : isspace d = false := isspace_of_isDigit d hdd
  have hminus : d ≠ '-' := by rintro rfl; revert hdd; decide
  have hplus : d ≠ '+' := by rintro rfl; revert hdd; decide
  have hdig := strtol_digits_spec (d :: ds1) rest hd hrest 0
  cases negative with
  | false =>
    simp only [signed_decimal, signed_value, Bool.false_eq_true, if_false, List.nil_append,
      List.cons_append] at hdig ⊢
    unfold strtol
    simp only [List.dropWhile_cons, hsp, Bool.false_eq_true, if_false, List.head?_cons,
      Option.some.injEq, hminus, hplus, or_self, decide_False, Option.map_some', hdd, if_true,
      hdig, decimal_value]
  | true =>
    simp only [signed_decimal, signed_value, if_true, List.cons_append, List.nil_append,
      List.singleton_append] at hdig ⊢
    unfold strtol
    have hsm : isspace '-' = false := by decide
    simp only [List.dropWhile_cons, hsm, Bool.false_eq_true, if_false, List.head?_cons,
      true_or, if_true, List.tail_cons, Option.map_some', hdd, decide_True, hdig,
      decimal_value]

theorem readIntOptarg_signed_decimal (negative : Bool) (ds : List Char) (hne : ds ≠ [])
    (hd : ∀ c ∈ ds, c.isDigit = true) :
    (INT_MIN ≤ signed_value negative ds → signed_value negative ds ≤ INT_MAX →
        readIntOptarg (signed_decimal negative ds) = some (signed_value negative ds)) ∧
      (INT_MAX < signed_value negative ds →
        readIntOptarg (signed_decimal negative ds) = none) ∧
      (∀ c rest, c.isDigit = false →
        readIntOptarg (signed_decimal negative ds ++ c :: rest) = none) := by
  have h0 := strtol_signed_decimal negative ds [] hne hd (by simp)
  rw [List.append_nil] at h0
  refine ⟨fun hlo hhi => ?_, fun hbig => ?_, fun c rest hc => ?_⟩
  · unfold readIntOptarg
    rw [h0]
    simp only [INT_MIN, INT_MAX, LONG_MIN, LONG_MAX] at hlo hhi ⊢
    have hv : max (-9223372036854775808) (min 9223372036854775807 (signed_value negative ds))
        = signed_value negative ds := by
      rw [min_eq_right (by omega), max_eq_right (by omega)]
    rw [hv]
    have hcast : int_of_long (signed_value negative ds) = signed_value negative ds := by
      unfold int_of_long; omega
    rw [hcast]
    simp only [ne_eq, not_true_eq_false, gt_iff_lt, false_or, ite_eq_right_iff,
      reduceCtorEq, imp_false, not_lt]
    exact hhi
  · unfold readIntOptarg
    rw [h0]
    simp only [INT_MAX, LONG_MIN, LONG_MAX] at hbig ⊢
    have hgt : max (-9223372036854775808)
        (min 9223372036854775807 (signed_value negative ds)) > 2147483647 := by
      apply lt_of_lt_of_le _ (le_max_right _ _)
      apply lt_min (by decide) hbig
    rw [if_pos (Or.inr hgt)]
  · have h1 := strtol_signed_decimal negative ds (c :: rest) hne hd (by simp [hc])
    unfold readIntOptarg
    rw [h1]
    simp

/-- C12, as the code has it. For a value `optarg` of `-n` or `-w` made of an optional
minus sign and one or more decimal digits: if the integer it denotes lies in
`INT_MIN .. INT_MAX` the value is accepted and that integer, negative or not, is stored
as `limit` (for `-n`) or `delay` (for `-w`); if it is greater than `INT_MAX`, or if the
digits are followed by another character, the parser ends with the fatal error. -/
theorem getArgrumentsSetSupervisor_signed_decimal (negative : Bool) (ds : List Char)
    (hne : ds ≠ []) (hd : ∀ c ∈ ds, c.isDigit = true) (supervisor : supervisor_t) :
    (INT_MIN ≤ signed_value negative ds → signed_value negative ds ≤ INT_MAX →
        readIntOptarg (signed_decimal negative ds) = some (signed_value negative ds) ∧
        getArgrumentsSetSupervisor [getopt_result.n (signed_decimal negative ds)] supervisor
          = some ⟨signed_value negative ds, 0⟩ ∧
        getArgrumentsSetSupervisor [getopt_result.w (signed_decimal negative ds)] supervisor
          = some ⟨INT_MAX, signed_value negative ds⟩) ∧
      (INT_MAX < signed_value negative ds →
        getArgrumentsSetSupervisor [getopt_result.n (signed_decimal negative ds)] supervisor
          = none ∧
        getArgrumentsSetSupervisor [getopt_result.w (signed_decimal negative ds)] supervisor
          = none) ∧
      (∀ c rest, c.isDigit = false →
        getArgrumentsSetSupervisor
            [getopt_result.n (signed_decimal negative ds ++ c :: rest)] supervisor = none ∧
        getArgrumentsSetSupervisor
            [getopt_result.w (signed_decimal negative ds ++ c :: rest)] supervisor = none) := by
  obtain ⟨h1, h2, h3⟩ := readIntOptarg_signed_decimal negative ds hne hd
  refine ⟨fun hlo hhi => ?_, fun hbig => ?_, fun c rest hc => ?_⟩
  · have e := h1 hlo hhi
    refine ⟨e, ?_, ?_⟩ <;>
      simp [getArgrumentsSetSupervisor, getArgrumentsSetSupervisor.loop, e]
  · have e := h2 hbig
    constructor <;> simp [getArgrumentsSetSupervisor, getArgrumentsSetSupervisor.loop, e]
  · have e := h3 c rest hc
    constructor <;> simp [getArgrumentsSetSupervisor, getArgrumentsSetSupervisor.loop, e]

/-- C12, as the code has it, at the value `-5`. -/
theorem getArgrumentsSetSupervisor_signed_decimal_witness :
    (['5'] ≠ [] ∧ ∀ c ∈ ['5'], c.isDigit = true) ∧
    ((INT_MIN ≤ signed_value true ['5'] → signed_value true ['5'] ≤ INT_MAX →
        readIntOptarg (signed_decimal true ['5']) = some (signed_value true ['5']) ∧
        getArgrumentsSetSupervisor [getopt_result.n (signed_decimal true ['5'])] ⟨0, 0⟩
          = some ⟨signed_value true ['5'], 0⟩ ∧
        getArgrumentsSetSupervisor [getopt_result.w (signed_decimal true ['5'])] ⟨0, 0⟩
          = some ⟨INT_MAX, signed_value true ['5']⟩) ∧
      (INT_MAX < signed_value true ['5'] →
        getArgrumentsSetSupervisor [getopt_result.n (signed_decimal true ['5'])] ⟨0, 0⟩
          = none ∧
        getArgrumentsSetSupervisor [getopt_result.w (signed_decimal true ['5'])] ⟨0, 0⟩
          = none) ∧
      (∀ c rest, c.isDigit = false →
        getArgrumentsSetSupervisor
            [getopt_result.n (signed_decimal true ['5'] ++ c :: rest)] ⟨0, 0⟩ = none ∧
        getArgrumentsSetSupervisor
            [getopt_result.w (signed_decimal true ['5'] ++ c :: rest)] ⟨0, 0⟩ = none)) :=
  ⟨⟨by decide, by decide⟩,
    getArgrumentsSetSupervisor_signed_decimal true ['5'] (by decide) (by decide) ⟨0, 0⟩⟩

/-- C12 as stated fails. The value `-5` is not the representation of an integer in
`0 .. INT_MAX`, and the parser accepts it: `-n -5` stores the limit -5 and `-w -5`
stores the delay -5. -/
theorem getArgrumentsSetSupervisor_accepts_negative :
    readIntOptarg "-5".toList = some (-5) ∧
      getArgrumentsSetSupervisor [getopt_result.n "-5".toList] ⟨0, 0⟩ = some ⟨-5, 0⟩ ∧
      getArgrumentsSetSupervisor [getopt_result.w "-5".toList] ⟨0, 0⟩
        = some ⟨INT_MAX, -5⟩ := by
  decide

/-- C13 at the failing inputs. The tokens `-`, `-5` and `1-` pass the validation as the
edges `0-0`, `0-5` and `1-0`: `strtol` makes no conversion on an empty string, returns 0
and leaves `*ptr` at the terminating NUL.  The tokens `5`, `1-2-3` and `a-b`, no token
and 41 tokens are rejected, and `1-2` is accepted as the edge `1-2`. -/
theorem validateAndSetListOfEdges_accepts_empty_parts :
    validateAndSetListOfEdges ["-".toList] = some ⟨[⟨0, 0⟩]⟩ ∧
      validateAndSetListOfEdges ["-5".toList] = some ⟨[⟨0, 5⟩]⟩ ∧
      validateAndSetListOfEdges ["1-".toList] = some ⟨[⟨1, 0⟩]⟩ ∧
      parseStringToInteger [] = some 0 ∧
      validateAndSetListOfEdges ["5".toList] = none ∧
      validateAndSetListOfEdges ["1-2-3".toList] = none ∧
      validateAndSetListOfEdges ["a-b".toList] = none ∧
      validateAndSetListOfEdges [] = none ∧
      validateAndSetListOfEdges (List.replicate 41 "1-2".toList) = none ∧
      validateAndSetListOfEdges ["1-2".toList] = some ⟨[⟨1, 2⟩]⟩ := by
  decide

/-! ## Several generators between wait and post -/

theorem sum_in_flight_le_length (l : List gen_pc) :
    (l.map gen_pc.in_flight).sum ≤ l.length := by
  induction l with
  | nil => simp
  | cons pc rest ih =>
    simp only [List.map_cons, List.sum_cons, List.length_cons]
    have : pc.in_flight ≤ 1 := by cases pc <;> simp [gen_pc.in_flight]
    omega

theorem System.gens_length_step (s s1 : System) (a : SystemAction) (h : s.step a = some s1) :
    s1.gens.length = s.gens.length := by
  cases a with
  | gen j solution =>
    simp only [System.step, System.gen_step] at h
    split at h
    all_goals first
      | cases h; done
      | (injection h with h; subst h; simp)
      | (split at h
         all_goals first
           | cases h; done
           | (injection h with h; subst h; simp))
  | sup =>
    simp only [System.step, System.sup_step] at h
    split at h
    all_goals first
      | cases h; done
      | (injection h with h; subst h; rfl)
      | (split at h
         all_goals first
           | cases h; done
           | (injection h with h; subst h; rfl))
  | sup_eintr =>
    simp only [System.step, System.sup_eintr] at h
    split at h
    · injection h with h; subst h; rfl
    · cases h
  | signal =>
    simp only [System.step, System.signal] at h
    split at h
    · cases h
    · injection h with h; subst h; rfl

/-- C14, as the code has it. The semaphore `free_sem`, created with the value 12, only
bounds how many generators are between `sem_wait(free_sem)` and `sem_post(used_sem)` at
the same time: in every state of every run, that number plus `free_count` is at most 12.
Nothing else keeps two generators apart there; only when a single generator runs is at
most one push in progress at any time. -/
theorem System.free_sem_bounds_generators (limit : Int) (buffer : List list_of_edges_t)
    (n : Nat) (actions : List SystemAction) (s : System)
    (h : (System.initial limit buffer n).run actions = some s) :
    s.gens_in_flight + s.free_count ≤ BUFFER_SIZE ∧ s.gens.length = n ∧
      (n ≤ 1 → s.gens_in_flight ≤ 1) := by
  have key : s.tokens = BUFFER_SIZE :=
    System.run_preserves (fun t => t.tokens = BUFFER_SIZE)
      (fun t t1 a ht hs => (System.tokens_step t t1 a hs).trans ht) actions _ s
      (System.tokens_initial limit buffer n) h
  have hlen : s.gens.length = n :=
    System.run_preserves (fun t => t.gens.length = n)
      (fun t t1 a ht hs => (System.gens_length_step t t1 a hs).trans ht) actions _ s
      (by simp [System.initial]) h
  unfold System.tokens System.in_flight at key
  unfold System.gens_in_flight
  refine ⟨by omega, hlen, fun hn => ?_⟩
  have := sum_in_flight_le_length s.gens
  omega

/-- C14, as the code has it, at the run in which two generators are both at the
store. -/
theorem System.free_sem_bounds_generators_witness :
    (System.initial INT_MAX (List.replicate 12 ⟨[]⟩) 2).run System.race_enter
        = some System.race_demo ∧
      (System.race_demo.gens_in_flight + System.race_demo.free_count ≤ BUFFER_SIZE ∧
        System.race_demo.gens.length = 2 ∧
        (2 ≤ 1 → System.race_demo.gens_in_flight ≤ 1)) :=
  ⟨by decide, System.free_sem_bounds_generators INT_MAX (List.replicate 12 ⟨[]⟩) 2
    System.race_enter System.race_demo (by decide)⟩

/-- C14 as stated fails. With two generators, both pass `sem_wait(free_sem)` before
either has stored: generator 0 stores the Solution `1-0` into slot 0, and generator 1,
reading the same `write_index` 0, stores `2-0 2-1` into slot 0 as well, with no pop in
between.  After both have updated `write_index` and posted, two Solutions are announced,
slot 0 holds the second one, and slot 1 holds what was there before. -/
theorem System.two_pushes_one_slot :
    ((System.initial INT_MAX (List.replicate 12 ⟨[]⟩) 2).run System.race_enter).map
        (fun s => (s.gens, s.free_count, s.myshm.write_index))
      = some ([gen_pc.write, gen_pc.write], 10, 0) ∧
    ((System.initial INT_MAX (List.replicate 12 ⟨[]⟩) 2).run
        (System.race_enter ++ [SystemAction.gen 0 ⟨[⟨1, 0⟩]⟩])).map
        (fun s => (s.gens, s.myshm.write_index, s.myshm.buffer.take 2))
      = some ([gen_pc.advance, gen_pc.write], 0, [⟨[⟨1, 0⟩]⟩, ⟨[]⟩]) ∧
    ((System.initial INT_MAX (List.replicate 12 ⟨[]⟩) 2).run System.race_stores).map
        (fun s => (s.gens, s.myshm.write_index, s.myshm.buffer.take 2))
      = some ([gen_pc.advance, gen_pc.advance], 0, [⟨[⟨2, 0⟩, ⟨2, 1⟩]⟩, ⟨[]⟩]) ∧
    ((System.initial INT_MAX (List.replicate 12 ⟨[]⟩) 2).run System.race_actions).map
        (fun s => (s.gens, s.used_count, s.myshm.write_index, s.myshm.read_index,
          s.myshm.buffer.take 2))
      = some ([gen_pc.loop_test, gen_pc.loop_test], 2, 2, 0,
          [⟨[⟨2, 0⟩, ⟨2, 1⟩]⟩, ⟨[]⟩]) := by
  decide

/-! ## The shuffle is one-to-one and onto -/

theorem shuffle_step_perm (list : List Int) (r size : Nat) (hr : r ≤ size)
    (hlen : size < list.length) :
    (list.getD r 0 :: (list.set r (list.getD size 0)).take size).Perm
      (list.take (size + 1)) := by
  rw [List.take_succ, List.getElem?_eq_getElem hlen]
  simp only [Option.toList_some]
  have hget : list.getD size 0 = list[size] := List.getD_eq_getElem _ _ hlen
  rw [← hget]
  by_cases hrs : r = size
  · rw [hrs, List.set_take, List.set_eq_of_length_le (by rw [List.length_take]; omega)]
    exact (List.perm_append_singleton _ _).symm
  · have hlt : r < size := by omega
    rw [List.set_take]
    have hl : r < (list.take size).length := by
      rw [List.length_take]; omega
    have hg : list.getD r 0 = (list.take size).getD r 0 := by
      rw [List.getD_eq_getElem?_getD, List.getD_eq_getElem?_getD, List.getElem?_take_of_lt hlt]
    rw [hg]
    exact (getD_cons_set_perm _ _ _ hl).trans (List.perm_append_singleton _ _).symm

theorem generateRandomListOfVertices_loop_acc (rand : Nat → Nat) :
    ∀ (size : Nat) (list list2 : List Int) (k : Nat),
      (generateRandomListOfVertices.loop rand size list list2 k).1
        = list2 ++ (generateRandomListOfVertices.loop rand size list [] k).1 := by
  intro size
  induction size with
  | zero => intro list list2 k; simp [generateRandomListOfVertices.loop]
  | succ size ih =>
    intro list list2 k
    simp only [generateRandomListOfVertices.loop]
    rw [ih _ (list2 ++ _), ih _ ([] ++ _)]
    simp

theorem generateRandomListOfVertices_loop_succ (rand : Nat → Nat) (size : Nat)
    (list : List Int) (k : Nat) :
    (generateRandomListOfVertices.loop rand (size + 1) list [] k).1
      = list.getD (rand k % (size + 1)) 0 ::
        (generateRandomListOfVertices.loop rand size
          (list.set (rand k % (size + 1)) (list.getD size 0)) [] (k + 1)).1 := by
  simp only [generateRandomListOfVertices.loop]
  rw [generateRandomNumber_zero, generateRandomListOfVertices_loop_acc]
  simp

theorem generateRandomListOfVertices_loop_congr (rand rand' : Nat → Nat) :
    ∀ (size : Nat) (list list2 : List Int) (k : Nat), (∀ j, k ≤ j → rand j = rand' j) →
      generateRandomListOfVertices.loop rand size list list2 k
        = generateRandomListOfVertices.loop rand' size list list2 k := by
  intro size
  induction size with
  | zero => intro list list2 k _; simp [generateRandomListOfVertices.loop]
  | succ size ih =>
    intro list list2 k h
    simp only [generateRandomListOfVertices.loop]
    rw [h k (le_refl _)]
    exact ih _ _ _ (fun j hj => h j (by omega))

theorem getD_inj_of_nodup (list : List Int) (n r r' : Nat) (hn : n ≤ list.length)
    (hnd : (list.take n).Nodup) (hr : r < n) (hr' : r' < n)
    (h : list.getD r 0 = list.getD r' 0) : r = r' := by
  have hl : r < (list.take n).length := by rw [List.length_take]; omega
  have hl' : r' < (list.take n).length := by rw [List.length_take]; omega
  have e1 : list.getD r 0 = (list.take n)[r] := by
    rw [List.getD_eq_getElem _ _ (by omega)]
    exact (List.getElem_take list).symm
  have e2 : list.getD r' 0 = (list.take n)[r'] := by
    rw [List.getD_eq_getElem _ _ (by omega)]
    exact (List.getElem_take list).symm
  rw [e1, e2] at h
  exact (List.Nodup.getElem_inj_iff hnd).1 h

theorem generateRandomListOfVertices_loop_injective (rand rand' : Nat → Nat) :
    ∀ (size : Nat) (list : List Int) (k k' : Nat), size ≤ list.length →
      (list.take size).Nodup →
      (generateRandomListOfVertices.loop rand size list [] k).1
        = (generateRandomListOfVertices.loop rand' size list [] k').1 →
      ∀ j, j < size → rand (k + j) % (size - j) = rand' (k' + j) % (size - j) := by
  intro size
  induction size with
  | zero => intro list k k' _ _ _ j hj; omega
  | succ size ih =>
    intro list k k' hlen hnd h j hj
    rw [generateRandomListOfVertices_loop_succ, generateRandomListOfVertices_loop_succ] at h
    obtain ⟨hhead, htail⟩ := List.cons.inj h
    have hr : rand k % (size + 1) < size + 1 := Nat.mod_lt _ (Nat.succ_pos _)
    have hr' : rand' k' % (size + 1) < size + 1 := Nat.mod_lt _ (Nat.succ_pos _)
    have hrr := getD_inj_of_nodup list (size + 1) _ _ hlen hnd hr hr' hhead
    cases j with
    | zero => simpa using hrr
    | succ j =>
      rw [← hrr] at htail
      have hp := shuffle_step_perm list (rand k % (size + 1)) size (by omega) (by omega)
      have hnd1 : ((list.set (rand k % (size + 1)) (list.getD size 0)).take size).Nodup :=
        (List.nodup_cons.1 (hp.nodup_iff.2 hnd)).2
      have := ih (list.set (rand k % (size + 1)) (list.getD size 0)) (k + 1) (k' + 1)
        (by rw [List.length_set]; omega) hnd1 htail j (by omega)
      have e1 : k + (j + 1) = k + 1 + j := by omega
      have e2 : k' + (j + 1) = k' + 1 + j := by omega
      have e3 : size + 1 - (j + 1) = size - j := by omega
      rw [e1, e2, e3]
      exact this

theorem generateRandomListOfVertices_loop_surjective :
    ∀ (size : Nat) (list : List Int) (p : List Int) (k : Nat), size ≤ list.length →
      p.Perm (list.take size) →
      ∃ rand : Nat → Nat, (generateRandomListOfVertices.loop rand size list [] k).1 = p := by
  intro size
  induction size with
  | zero =>
    intro list p k _ hp
    refine ⟨fun _ => 0, ?_⟩
    simp only [List.take_zero, List.perm_nil] at hp
    simp [generateRandomListOfVertices.loop, hp]
  | succ size ih =>
    intro list p k hlen hp
    cases p with
    | nil =>
      have := hp.length_eq
      simp only [List.length_nil, List.length_take] at this
      omega
    | cons x p1 =>
      have hx : x ∈ list.take (size + 1) := hp.mem_iff.1 (List.mem_cons_self _ _)
      obtain ⟨r, hr, hxr⟩ := List.getElem_of_mem hx
      rw [List.length_take] at hr
      have hr1 : r ≤ size := by omega
      rw [List.getElem_take] at hxr
      have hgx : list.getD r 0 = x := by
        rw [List.getD_eq_getElem _ _ (by omega)]; exact hxr
      have hstep := shuffle_step_perm list r size hr1 (by omega)
      rw [hgx] at hstep
      have hp1 : p1.Perm ((list.set r (list.getD size 0)).take size) :=
        (List.Perm.cons_inv (hp.trans hstep.symm))
      obtain ⟨rand1, h1⟩ := ih (list.set r (list.getD size 0)) p1 (k + 1)
        (by rw [List.length_set]; omega) hp1
      refine ⟨fun j => if j = k then r else rand1 j, ?_⟩
      rw [generateRandomListOfVertices_loop_succ]
      have hmod : r % (size + 1) = r := Nat.mod_eq_of_lt (by omega)
      simp only [if_true, hmod, hgx]
      rw [generateRandomListOfVertices_loop_congr _ rand1 size _ [] (k + 1)
        (fun j hj => by simp only [if_neg (show j ≠ k by omega)]), h1]

/-- C17. For a list of `n` distinct vertices, `generateRandomListOfVertices` returns a
permutation of it, of the same size, whatever `rand()` yields.  The permutation
determines the index drawn at every step (`rand() % (n - j)` at step `j`), so different
index sequences give different permutations, and every permutation of the list is
returned for some index sequence: the index sequences correspond one-to-one to the
permutations. -/
theorem generateRandomListOfVertices_bijective (v : list_of_vertices_t)
    (hnd : v.list.Nodup) :
    (∀ rand k, (generateRandomListOfVertices rand k v).1.list.Perm v.list ∧
        (generateRandomListOfVertices rand k v).1.size = v.size) ∧
      (∀ rand rand' k k',
        (generateRandomListOfVertices rand k v).1 = (generateRandomListOfVertices rand' k' v).1 →
        ∀ j, j < v.size → rand (k + j) % (v.size - j) = rand' (k' + j) % (v.size - j)) ∧
      (∀ p : List Int, p.Perm v.list →
        ∀ k, ∃ rand, (generateRandomListOfVertices rand k v).1 = ⟨p⟩) := by
  refine ⟨fun rand k => ?_, fun rand rand' k k' h j hj => ?_, fun p hp k => ?_⟩
  · have h1 := (generateRandomListOfVertices_perm rand k v).1
    exact ⟨h1, h1.length_eq⟩
  · unfold generateRandomListOfVertices at h
    simp only [list_of_vertices_t.mk.injEq] at h
    exact generateRandomListOfVertices_loop_injective rand rand' v.size v.list k k'
      (le_refl _) (by simpa [list_of_vertices_t.size] using hnd) h j hj
  · obtain ⟨rand, h⟩ := generateRandomListOfVertices_loop_surjective v.size v.list p k
      (le_refl _) (by simpa [list_of_vertices_t.size] using hp)
    exact ⟨rand, by unfold generateRandomListOfVertices; simp only [h]⟩

/-- C17 at the vertex list `(0, 1, 2)`. -/
theorem generateRandomListOfVertices_bijective_witness :
    ([0, 1, 2] : List Int).Nodup ∧
    ((∀ rand k, (generateRandomListOfVertices rand k ⟨[0, 1, 2]⟩).1.list.Perm [0, 1, 2] ∧
        (generateRandomListOfVertices rand k ⟨[0, 1, 2]⟩).1.size
          = (⟨[0, 1, 2]⟩ : list_of_vertices_t).size) ∧
      (∀ rand rand' k k',
        (generateRandomListOfVertices rand k ⟨[0, 1, 2]⟩).1
          = (generateRandomListOfVertices rand' k' ⟨[0, 1, 2]⟩).1 →
        ∀ j, j < (⟨[0, 1, 2]⟩ : list_of_vertices_t).size →
          rand (k + j) % ((⟨[0, 1, 2]⟩ : list_of_vertices_t).size - j)
            = rand' (k' + j) % ((⟨[0, 1, 2]⟩ : list_of_vertices_t).size - j)) ∧
      (∀ p : List Int, p.Perm [0, 1, 2] →
        ∀ k, ∃ rand, (generateRandomListOfVertices rand k ⟨[0, 1, 2]⟩).1 = ⟨p⟩)) :=
  ⟨by decide, generateRandomListOfVertices_bijective ⟨[0, 1, 2]⟩ (by decide)⟩

/-! ## Accepted edge lists that overflow the vertex list -/

/-- C18 at the failing input `0-1 2-3 ... 40-41`. The 21 tokens pass
`validateAndSetListOfEdges`; the edges have 42 distinct endpoints.  After the first 40
endpoints `list_of_vertices.size` is 40, and for the vertex 40, which is not in the list,
`addElemToListOfVertices` stores at `list[40]`, outside the array of
`DEFAULT_EDGES_AMOUNT` cells. -/
theorem validated_edges_overflow_list_of_vertices :
    disjoint_tokens.length = 21 ∧
      validateAndSetListOfEdges disjoint_tokens = some (disjoint_edges 21) ∧
      ((endpoints (disjoint_edges 21).list).dedup).length = 42 ∧
      createListOfVertices (disjoint_edges 20)
        = some ⟨(List.range 40).map fun i => (i : Int)⟩ ∧
      indexOfElementInVertices ⟨(List.range 40).map fun i => (i : Int)⟩ 40 = -1 ∧
      (⟨(List.range 40).map fun i => (i : Int)⟩ : list_of_vertices_t).size
        = DEFAULT_EDGES_AMOUNT ∧
      addElemToListOfVertices ⟨(List.range 40).map fun i => (i : Int)⟩ 40 = none ∧
      (validateAndSetListOfEdges disjoint_tokens).bind createListOfVertices = none := by
  decide

end FbArcSet

namespace MyExpand

/-! ## Tabs become spaces up to the next tab stop -/

theorem column_snoc (output : List Char) (c : Char) :
    column (output ++ [c]) = if c = '\n' then 0 else column output + 1 := by
  unfold column
  rw [List.reverse_append, List.reverse_singleton, List.singleton_append,
    List.takeWhile_cons]
  by_cases h : c = '\n'
  · simp [h]
  · simp [h]

theorem spaces_spec (n : Nat) (st : expand_state) :
    replaceTabsWithSpaces.spaces n st
      = ⟨st.output ++ List.replicate n ' ', st.position + n⟩ := by
  induction n generalizing st with
  | zero => simp [replaceTabsWithSpaces.spaces]
  | succ n ih =>
    simp only [replaceTabsWithSpaces.spaces, ih, List.replicate_succ, List.append_assoc,
      List.singleton_append]
    congr 1
    omega

theorem column_spaces (output : List Char) (n : Nat) :
    column (output ++ List.replicate n ' ') = column output + n := by
  induction n with
  | zero => simp
  | succ n ih =>
    rw [List.replicate_succ', ← List.append_assoc, column_snoc, ih]
    simp only [show ¬ (' ' = '\n') by decide, if_false]
    omega

/-- What the loop keeps: `position` is the output column, and no tab has been
written. -/
theorem step_invariant (tabstop : Nat) (st : expand_state) (character : Char)
    (h : st.position = column st.output ∧ '\t' ∉ st.output) :
    (replaceTabsWithSpaces.step tabstop st character).position
        = column (replaceTabsWithSpaces.step tabstop st character).output ∧
      '\t' ∉ (replaceTabsWithSpaces.step tabstop st character).output := by
  obtain ⟨hp, ht⟩ := h
  unfold replaceTabsWithSpaces.step
  by_cases hc : character = '\t'
  · rw [if_pos hc, spaces_spec]
    dsimp only
    rw [column_spaces, hp]
    refine ⟨rfl, ?_⟩
    intro hm
    rcases List.mem_append.1 hm with h1 | h1
    · exact ht h1
    · have := (List.mem_replicate.1 h1).2
      revert this
      decide
  · rw [if_neg hc]
    dsimp only
    rw [column_snoc, hp]
    refine ⟨by split <;> rfl, ?_⟩
    intro hm
    rcases List.mem_append.1 hm with h1 | h1
    · exact ht h1
    · exact hc (List.mem_singleton.1 h1).symm

theorem foldl_invariant (tabstop : Nat) (input : List Char) :
    ∀ st : expand_state, (st.position = column st.output ∧ '\t' ∉ st.output) →
      (input.foldl (replaceTabsWithSpaces.step tabstop) st).position
          = column (input.foldl (replaceTabsWithSpaces.step tabstop) st).output ∧
        '\t' ∉ (input.foldl (replaceTabsWithSpaces.step tabstop) st).output := by
  induction input with
  | nil => intro st h; exact h
  | cons c rest ih =>
    intro st h
    exact ih _ (step_invariant tabstop st c h)

/-- C15. For a tabstop `t >= 1` (in particular `1 <= t <= 64`), what
`replaceTabsWithSpaces` writes for an input followed by one more character is what it
writes for the input, followed by that character unchanged or, for a tab, by `k` spaces,
where `k = t - column % t` and `column` is the number of characters written since the
last newline: `1 <= k <= t`, and `column + k` is a multiple of `t`.  For the empty input
nothing is written, and the output never contains a tab. -/
theorem replaceTabsWithSpaces_spec (tabstop : Nat) (ht : 1 ≤ tabstop) (input : List Char)
    (character : Char) :
    replaceTabsWithSpaces tabstop [] = [] ∧
      replaceTabsWithSpaces tabstop (input ++ [character])
        = replaceTabsWithSpaces tabstop input ++
          (if character = '\t' then
            List.replicate
              (tabstop - column (replaceTabsWithSpaces tabstop input) % tabstop) ' '
           else [character]) ∧
      1 ≤ tabstop - column (replaceTabsWithSpaces tabstop input) % tabstop ∧
      tabstop - column (replaceTabsWithSpaces tabstop input) % tabstop ≤ tabstop ∧
      (column (replaceTabsWithSpaces tabstop input)
        + (tabstop - column (replaceTabsWithSpaces tabstop input) % tabstop)) % tabstop = 0 ∧
      '\t' ∉ replaceTabsWithSpaces tabstop input := by
  have inv := foldl_invariant tabstop input ⟨[], 0⟩ ⟨rfl, by simp⟩
  have hmod : column (replaceTabsWithSpaces tabstop input) % tabstop < tabstop :=
    Nat.mod_lt _ (by omega)
  refine ⟨rfl, ?_, by omega, by omega, ?_, inv.2⟩
  · unfold replaceTabsWithSpaces
    rw [List.foldl_append, List.foldl_cons, List.foldl_nil]
    have hpos := inv.1
    generalize input.foldl (replaceTabsWithSpaces.step tabstop) ⟨[], 0⟩ = st at hpos ⊢
    unfold replaceTabsWithSpaces.step
    by_cases hc : character = '\t'
    · rw [if_pos hc, if_pos hc, spaces_spec, hpos]
    · rw [if_neg hc, if_neg hc]
  · have hdm := Nat.div_add_mod (column (replaceTabsWithSpaces tabstop input)) tabstop
    have e : column (replaceTabsWithSpaces tabstop input)
        + (tabstop - column (replaceTabsWithSpaces tabstop input) % tabstop)
        = tabstop * (column (replaceTabsWithSpaces tabstop input) / tabstop + 1) := by
      rw [Nat.mul_add, Nat.mul_one]
      omega
    rw [e]
    exact Nat.mul_mod_right _ _

/-- C15 at tabstop 8, the input `ab`, a newline, `c`, and then a tab: 7 spaces are
written. -/
theorem replaceTabsWithSpaces_spec_witness :
    (1 ≤ 8) ∧
    (replaceTabsWithSpaces 8 [] = [] ∧
      replaceTabsWithSpaces 8 (['a', 'b', '\n', 'c'] ++ ['\t'])
        = replaceTabsWithSpaces 8 ['a', 'b', '\n', 'c'] ++
          (if '\t' = '\t' then
            List.replicate
              (8 - column (replaceTabsWithSpaces 8 ['a', 'b', '\n', 'c']) % 8) ' '
           else ['\t']) ∧
      1 ≤ 8 - column (replaceTabsWithSpaces 8 ['a', 'b', '\n', 'c']) % 8 ∧
      8 - column (replaceTabsWithSpaces 8 ['a', 'b', '\n', 'c']) % 8 ≤ 8 ∧
      (column (replaceTabsWithSpaces 8 ['a', 'b', '\n', 'c'])
        + (8 - column (replaceTabsWithSpaces 8 ['a', 'b', '\n', 'c']) % 8)) % 8 = 0 ∧
      '\t' ∉ replaceTabsWithSpaces 8 ['a', 'b', '\n', 'c']) ∧
    replaceTabsWithSpaces 8 ['a', 'b', '\n', 'c', '\t']
      = ['a', 'b', '\n', 'c', ' ', ' ', ' ', ' ', ' ', ' ', ' '] :=
  ⟨by decide, replaceTabsWithSpaces_spec 8 (by decide) ['a', 'b', '\n', 'c'] '\t', by decide⟩

end MyExpand

namespace ForkSort

/-! ## The order of strcmp -/

theorem char_eq_of_toNat_eq (a b : Char) (h : a.toNat = b.toNat) : a = b := by
  rw [← Char.ofNat_toNat a, ← Char.ofNat_toNat b, h]

theorem toNat_pos_of_ne_NUL (c : Char) (h : c ≠ NUL) : 0 < c.toNat := by
  rcases Nat.eq_zero_or_pos c.toNat with h0 | h0
  · exact absurd (char_eq_of_toNat_eq c NUL (by rw [h0]; rfl)) h
  · exact h0

theorem NUL_not_mem_c_string (buffer : List Char) : NUL ∉ c_string buffer := by
  intro h
  have := List.mem_takeWhile_imp h
  simp at this

theorem strcmp_loop_total (s1 : List Char) :
    ∀ s2, strcmp.loop s1 s2 ≤ 0 ∨ strcmp.loop s2 s1 ≤ 0 := by
  induction s1 with
  | nil =>
    intro s2
    cases s2 with
    | nil => left; simp [strcmp.loop]
    | cons b s2 => left; simp [strcmp.loop]
  | cons a s1 ih =>
    intro s2
    cases s2 with
    | nil => right; simp [strcmp.loop]
    | cons b s2 =>
      by_cases hab : a = b
      · subst hab
        simpa [strcmp.loop] using ih s2
      · have hba : ¬ b = a := fun e => hab e.symm
        simp only [strcmp.loop, if_neg hab, if_neg hba]
        omega

theorem strcmp_loop_trans (s1 : List Char) :
    ∀ s2 s3, NUL ∉ s1 → NUL ∉ s2 → strcmp.loop s1 s2 ≤ 0 → strcmp.loop s2 s3 ≤ 0 →
      strcmp.loop s1 s3 ≤ 0 := by
  induction s1 with
  | nil =>
    intro s2 s3 _ _ _ _
    cases s3 with
    | nil => simp [strcmp.loop]
    | cons c s3 => simp [strcmp.loop]
  | cons a s1 ih =>
    intro s2 s3 h1 h2 h12 h23
    have ha : 0 < a.toNat :=
      toNat_pos_of_ne_NUL a (fun e => h1 (e ▸ List.mem_cons_self _ _))
    cases s2 with
    | nil =>
      simp only [strcmp.loop] at h12
      omega
    | cons b s2 =>
      have hb : 0 < b.toNat :=
        toNat_pos_of_ne_NUL b (fun e => h2 (e ▸ List.mem_cons_self _ _))
      cases s3 with
      | nil =>
        simp only [strcmp.loop] at h23
        omega
      | cons c s3 =>
        by_cases hab : a = b
        · subst hab
          simp only [strcmp.loop, if_true] at h12
          by_cases hac : a = c
          · subst hac
            simp only [strcmp.loop, if_true] at h23 ⊢
            exact ih s2 s3 (fun h => h1 (List.mem_cons_of_mem _ h))
              (fun h => h2 (List.mem_cons_of_mem _ h)) h12 h23
          · simp only [strcmp.loop, if_neg hac] at h23 ⊢
            exact h23
        · simp only [strcmp.loop, if_neg hab] at h12
          have hlt : a.toNat < b.toNat := by
            have : a.toNat ≠ b.toNat := fun e => hab (char_eq_of_toNat_eq a b e)
            omega
          by_cases hbc : b = c
          · subst hbc
            simp only [strcmp.loop, if_neg hab]
            omega
          · simp only [strcmp.loop, if_neg hbc] at h23
            have hac : ¬ a = c := by
              intro e
              subst e
              omega
            simp only [strcmp.loop, if_neg hac]
            omega

theorem strcmp_total (a b : List Char) : strcmp a b ≤ 0 ∨ strcmp b a ≤ 0 :=
  strcmp_loop_total _ _

theorem strcmp_trans (a b c : List Char) (h1 : strcmp a b ≤ 0) (h2 : strcmp b c ≤ 0) :
    strcmp a c ≤ 0 :=
  strcmp_loop_trans _ _ _ (NUL_not_mem_c_string a) (NUL_not_mem_c_string b) h1 h2

/-! ## The merge -/

theorem merge_cons_cons (line1 line2 : List Char) (lines1 lines2 : List (List Char)) :
    mergeLinesFromTwoChildren (line1 :: lines1) (line2 :: lines2) =
      if strcmp line1 line2 ≤ 0 then
        line1 :: mergeLinesFromTwoChildren lines1 (line2 :: lines2)
      else line2 :: mergeLinesFromTwoChildren (line1 :: lines1) lines2 := rfl

theorem merge_perm (lines1 : List (List Char)) :
    ∀ lines2, (mergeLinesFromTwoChildren lines1 lines2).Perm (lines1 ++ lines2) := by
  induction lines1 with
  | nil => intro lines2; exact List.Perm.refl _
  | cons a as ih =>
    intro lines2
    induction lines2 with
    | nil => simp [mergeLinesFromTwoChildren, mergeLinesFromTwoChildren.second]
    | cons b bs ih2 =>
      rw [merge_cons_cons]
      split
      · exact List.Perm.cons a (ih (b :: bs))
      · exact (List.Perm.cons b ih2).trans List.perm_middle.symm

theorem merge_sorted (lines1 : List (List Char)) :
    ∀ lines2, lines1.Pairwise (fun a b => strcmp a b ≤ 0) →
      lines2.Pairwise (fun a b => strcmp a b ≤ 0) →
      (mergeLinesFromTwoChildren lines1 lines2).Pairwise (fun a b => strcmp a b ≤ 0) := by
  induction lines1 with
  | nil => intro lines2 _ h2; exact h2
  | cons a as ih =>
    intro lines2
    induction lines2 with
    | nil => intro h1 _; exact h1
    | cons b bs ih2 =>
      intro h1 h2
      rw [merge_cons_cons]
      obtain ⟨ha, has⟩ := List.pairwise_cons.1 h1
      obtain ⟨hb, hbs⟩ := List.pairwise_cons.1 h2
      split
      · rename_i hab
        refine List.pairwise_cons.2 ⟨fun y hy => ?_, ih (b :: bs) has h2⟩
        rcases List.mem_append.1 ((merge_perm as (b :: bs)).mem_iff.1 hy) with h | h
        · exact ha y h
        · rcases List.mem_cons.1 h with h | h
          · exact h ▸ hab
          · exact strcmp_trans a b y hab (hb y h)
      · rename_i hab
        have hba : strcmp b a ≤ 0 := (strcmp_total a b).resolve_left hab
        refine List.pairwise_cons.2 ⟨fun y hy => ?_, ih2 h1 hbs⟩
        rcases List.mem_append.1 ((merge_perm (a :: as) bs).mem_iff.1 hy) with h | h
        · rcases List.mem_cons.1 h with h | h
          · exact h ▸ hba
          · exact strcmp_trans b a y hba (ha y h)
        · exact hb y h

/-! ## Lines through a pipe -/

theorem c_string_of_is_line (line : List Char) (h : is_line line) : c_string line = line := by
  obtain ⟨body, rfl, _, hnul⟩ := h
  unfold c_string
  rw [List.takeWhile_eq_self_iff]
  intro c hc
  simp only [ne_eq, decide_eq_true_eq]
  rcases List.mem_append.1 hc with h1 | h1
  · exact fun e => hnul (e ▸ h1)
  · rw [List.mem_singleton.1 h1]
    decide

theorem fprintf_lines_append (lines1 lines2 : List (List Char)) :
    fprintf_lines (lines1 ++ lines2) = fprintf_lines lines1 ++ fprintf_lines lines2 := by
  induction lines1 with
  | nil => rfl
  | cons l rest ih =>
    simp only [fprintf_lines, List.cons_append, List.foldr_cons, List.append_assoc] at ih ⊢
    rw [ih]

theorem getlines_loop_body (body : List Char) (hb : '\n' ∉ body) :
    ∀ (line stream : List Char),
      getlines.loop (body ++ '\n' :: stream) line
        = (line ++ body ++ ['\n']) :: getlines.loop stream [] := by
  induction body with
  | nil =>
    intro line stream
    simp [getlines.loop]
  | cons c body ih =>
    intro line stream
    have hc : c ≠ '\n' := fun e => hb (e ▸ List.mem_cons_self _ _)
    have e := ih (fun h => hb (List.mem_cons_of_mem _ h)) (line ++ [c]) stream
    simp only [List.cons_append, getlines.loop, if_neg hc]
    exact e.trans (by simp)

theorem getlines_fprintf_lines (lines : List (List Char)) (h : ∀ l ∈ lines, is_line l) :
    getlines (fprintf_lines lines) = lines := by
  induction lines with
  | nil => rfl
  | cons l rest ih =>
    have hl := h l (List.mem_cons_self _ _)
    have hc := c_string_of_is_line l hl
    obtain ⟨body, rfl, hb, _⟩ := hl
    have ih1 := ih (fun x hx => h x (List.mem_cons_of_mem _ hx))
    unfold getlines at ih1 ⊢
    simp only [fprintf_lines, List.foldr_cons] at ih1 ⊢
    rw [hc, List.append_assoc, List.singleton_append, getlines_loop_body body hb, ih1]
    simp

theorem splitLinesInTwoParts_loop_deal (rest : List (List Char)) :
    ∀ (count : Nat) (file1 file2 : List Char),
      splitLinesInTwoParts.loop rest count (file1, file2)
        = (file1 ++ fprintf_lines (deal rest count).1,
           file2 ++ fprintf_lines (deal rest count).2) := by
  induction rest with
  | nil => intro count file1 file2; simp [splitLinesInTwoParts.loop, deal, fprintf_lines]
  | cons l rest ih =>
    intro count file1 file2
    by_cases hc : count % 2 = 0
    · simp only [splitLinesInTwoParts.loop, deal, if_pos hc, ih]
      simp [fprintf_lines]
    · simp only [splitLinesInTwoParts.loop, deal, if_neg hc, ih]
      simp [fprintf_lines]

theorem deal_perm (rest : List (List Char)) :
    ∀ count, ((deal rest count).1 ++ (deal rest count).2).Perm rest := by
  induction rest with
  | nil => intro count; simp [deal]
  | cons l rest ih =>
    intro count
    by_cases hc : count % 2 = 0
    · simp only [deal, if_pos hc, List.cons_append]
      exact List.Perm.cons l (ih _)
    · simp only [deal, if_neg hc]
      exact List.perm_middle.trans (List.Perm.cons l (ih _))

/-- For an input made of complete lines, the process writes these lines in the order of
`strcmp`, each as often as it occurs in the input, provided `fuel` exceeds the number
of lines. -/
theorem forksort_complete_lines :
    ∀ (fuel : Nat) (lines : List (List Char)), (∀ l ∈ lines, is_line l) →
      lines.length < fuel →
      ∃ sorted : List (List Char),
        forksort fuel (fprintf_lines lines) = some (fprintf_lines sorted) ∧
        sorted.Perm lines ∧ sorted.Pairwise (fun a b => strcmp a b ≤ 0) := by
  intro fuel
  induction fuel with
  | zero => intro lines _ h; omega
  | succ fuel ih =>
    intro lines hl hlen
    have hget := getlines_fprintf_lines lines hl
    match lines, hl, hlen, hget with
    | [], _, _, hget =>
      exact ⟨[], by simp only [forksort, hget]; rfl, List.Perm.refl _, List.Pairwise.nil⟩
    | [line1], _, _, hget =>
      refine ⟨[line1], ?_, List.Perm.refl _, List.pairwise_singleton _ _⟩
      simp only [forksort, hget]
      simp [fprintf_lines]
    | line1 :: line2 :: rest, hl, hlen, hget =>
      have hd := deal_perm rest 0
      have hlen1 : ((deal rest 0).1 ++ (deal rest 0).2).length = rest.length := hd.length_eq
      rw [List.length_append] at hlen1
      simp only [List.length_cons] at hlen
      have hmem : ∀ x, x ∈ (deal rest 0).1 ∨ x ∈ (deal rest 0).2 → is_line x := by
        intro x hx
        exact hl x (List.mem_cons_of_mem _ (List.mem_cons_of_mem _
          (hd.mem_iff.1 (List.mem_append.2 hx))))
      have hl1 : ∀ l ∈ line1 :: (deal rest 0).1, is_line l := by
        intro l hm
        rcases List.mem_cons.1 hm with e | e
        · exact e ▸ hl line1 (List.mem_cons_self _ _)
        · exact hmem l (Or.inl e)
      have hl2 : ∀ l ∈ line2 :: (deal rest 0).2, is_line l := by
        intro l hm
        rcases List.mem_cons.1 hm with e | e
        · exact e ▸ hl line2 (List.mem_cons_of_mem _ (List.mem_cons_self _ _))
        · exact hmem l (Or.inr e)
      obtain ⟨s1, e1, p1, o1⟩ := ih (line1 :: (deal rest 0).1) hl1
        (by simp only [List.length_cons]; omega)
      obtain ⟨s2, e2, p2, o2⟩ := ih (line2 :: (deal rest 0).2) hl2
        (by simp only [List.length_cons]; omega)
      have g1 := getlines_fprintf_lines s1 (fun l hm => hl1 l (p1.mem_iff.1 hm))
      have g2 := getlines_fprintf_lines s2 (fun l hm => hl2 l (p2.mem_iff.1 hm))
      have f1 : c_string line1 ++ fprintf_lines (deal rest 0).1
          = fprintf_lines (line1 :: (deal rest 0).1) := rfl
      have f2 : c_string line2 ++ fprintf_lines (deal rest 0).2
          = fprintf_lines (line2 :: (deal rest 0).2) := rfl
      refine ⟨mergeLinesFromTwoChildren s1 s2, ?_, ?_, merge_sorted s1 s2 o1 o2⟩
      · simp only [forksort, hget, splitLinesInTwoParts_loop_deal, f1, f2, e1, e2,
          Option.some_bind, g1, g2]
      · refine (merge_perm s1 s2).trans ((p1.append p2).trans ?_)
        simp only [List.cons_append]
        exact List.Perm.cons line1 (List.perm_middle.trans (List.Perm.cons line2 hd))

/-- C16 at the failing input: the three lines `c`, `b` and `a`, the last one without a
newline.  The first child receives `c` and `a`, and its own children print `c` with its
newline and `a` without; merged, `a` comes first, so the first child writes the bytes
`ac` and a newline, which its parent reads back with `getline` as the one line `ac`.
The process prints the lines `ac` and `b`, which are not a permutation of the input
lines.  With the newline after `a`, it prints `a`, `b`, `c`. -/
theorem forksort_joins_unterminated_line :
    getlines "c\nb\na".toList = ["c\n".toList, "b\n".toList, "a".toList] ∧
      forksort 2 "c\na".toList = some "ac\n".toList ∧
      forksort 3 "c\nb\na".toList = some "ac\nb\n".toList ∧
      getlines "ac\nb\n".toList = ["ac\n".toList, "b\n".toList] ∧
      forksort 3 "c\nb\na\n".toList = some "a\nb\nc\n".toList := by
  decide

end ForkSort
